import Mathlib

/-!
protoDecode: a schema-less decoder for the protocol-buffers wire format

Shallow embedding of `main.go` (package `main`) and the properties of its decoder.

Conventions of the embedding.

* A Go `byte` is a `Fin 256`.
* A Go `int64` / `int32` / `int` is an `Int` inside the range of its width; every
  operation that can leave the range is reduced explicitly (`toU`, `toI`).  `int` is
  taken to be 64 bits wide.
* A Go `[]byte` is a `Slice`: the elements below `len` and, separately, the elements
  of the backing array between `len` and `cap`.  A slice expression `s[lo:hi]` on a
  slice is checked against `cap(s)`, `s[lo:]` and `s[i]` against `len(s)` (Go
  language specification, "Slice expressions" and "Index expressions").
* A run-time panic (index or slice bounds out of range) is the outcome `Exec.panic`;
  a returned `error` is a value of `Error` inside `Exec.ret`.
* Results written through the `*Field` argument are returned as the updated `Field`.
-/

namespace ProtoDecode

/-! ## Machine integers -/

/-- A Go `byte`. -/
abbrev Byte := Fin 256

/-- The conversion `byte(n)` of a non-negative integer: its low eight bits. -/
def byte (n : Nat) : Byte := ⟨n % 256, Nat.mod_lt _ (by decide)⟩

/-- Bit pattern, in two-complement form on `w` bits, of an integer. -/
def toU (w : Nat) (x : Int) : Nat := (x % 2 ^ w).toNat

/-- The signed `w`-bit integer with the given bit pattern (taken modulo `2 ^ w`). -/
def toI (w : Nat) (n : Nat) : Int :=
  if n % 2 ^ w < 2 ^ (w - 1) then ((n % 2 ^ w : Nat) : Int) else ((n % 2 ^ w : Nat) : Int) - 2 ^ w

/-- Bitwise or `x | y` on signed `w`-bit integers. -/
def orW (w : Nat) (x y : Int) : Int := toI w (toU w x ||| toU w y)

/-- Bitwise and `x & y` on signed `w`-bit integers. -/
def andW (w : Nat) (x y : Int) : Int := toI w (toU w x &&& toU w y)

/-- Bitwise exclusive or `x ^ y` on signed `w`-bit integers. -/
def xorW (w : Nat) (x y : Int) : Int := toI w (toU w x ^^^ toU w y)

/-- Left shift `x << s` on signed `w`-bit integers: bits shifted out are lost. -/
def shlW (w : Nat) (x : Int) (s : Nat) : Int := toI w (toU w x <<< s)

/-- Right shift `x >> s` on a signed integer: the arithmetic shift. -/
def sarW (x : Int) (s : Nat) : Int := x >>> s

/-- Unary minus `-x` on signed `w`-bit integers (wraps at the minimum value). -/
def negW (w : Nat) (x : Int) : Int := toI w (toU w (-x))

/-- Addition `x + y` on Go `int` (64 bits, wraps). -/
def addInt (x y : Int) : Int := toI 64 (toU 64 (x + y))

/-! ## Slices -/

/-- A Go `[]byte`: `data` holds the elements `s[0 .. len)`, `spare` the elements of the
backing array from `len` up to `cap`. -/
structure Slice where
  data : List Byte
  spare : List Byte
deriving DecidableEq

namespace Slice

/-- The nil slice. -/
def nil : Slice := ⟨[], []⟩

/-- A slice whose capacity equals its length. -/
def ofList (l : List Byte) : Slice := ⟨l, []⟩

/-- Go `len(s)`. -/
def len (s : Slice) : Int := s.data.length

/-- Go `cap(s)`. -/
def cap (s : Slice) : Int := s.data.length + s.spare.length

/-- Go `s[lo:]`: in range iff `0 <= lo <= len(s)`; the capacity is kept. -/
def sliceFrom (s : Slice) (lo : Int) : Option Slice :=
  if 0 ≤ lo ∧ lo ≤ s.len then some ⟨s.data.drop lo.toNat, s.spare⟩ else none

/-- Go `s[lo:hi]`: in range iff `0 <= lo <= hi <= cap(s)`. -/
def slice (s : Slice) (lo hi : Int) : Option Slice :=
  if 0 ≤ lo ∧ lo ≤ hi ∧ hi ≤ s.cap then
    some ⟨((s.data ++ s.spare).drop lo.toNat).take (hi - lo).toNat,
          (s.data ++ s.spare).drop hi.toNat⟩
  else none

end Slice

/-! ## Outcomes -/

/-- The `error` values the decoder builds with `fmt.Errorf`. -/
inductive Error where
  /-- "not varint" -/
  | notVarint
  /-- "not length delimited" -/
  | notLengthDelimited
  /-- "not 32bit" -/
  | not32bit
  /-- "not 64bit" -/
  | not64bit
  /-- "varint length < 1" -/
  | varintLengthLt1
  /-- "unknown wire type: %d" with the wire type -/
  | unknownWireType (wire : Int)
deriving DecidableEq

/-- Outcome of running a Go function: it returns, it panics, or (only for the
fuel-bounded loop of `AsEmbedded`) the bound on the iterations was reached. -/
inductive Exec (α : Type) where
  | ret (a : α)
  | panic
  | timeout
deriving DecidableEq

/-! ## The decoder -/

def _varint : Int := 0
def _64bit : Int := 1
def _lengthDelimited : Int := 2
def _32bit : Int := 5

/-- The record `Field`. -/
structure Field where
  FieldNum : Int
  WireType : Int
  Length : Int
  data : Slice
deriving DecidableEq

/-- The zero value `Field{}`. -/
def Field.zero : Field := ⟨0, 0, 0, Slice.nil⟩

/-- Function `tag`: field number and wire type of one byte. -/
def tag (b : Byte) : Int × Int :=
  (((b.val &&& 0b11111000) >>> 3 : Nat), ((b.val &&& 0b00000111 : Nat)))

/-- Loop of `varint`: `c` is the index of the head of the list, `x` the accumulator. -/
def varintLoop : List Byte → Nat → Int → Int × Int
  | [], _, _ => (0, 0)
  | v :: arr, c, x =>
    if v.val &&& 0x80 = 0 then
      (orW 64 x (shlW 64 (v.val : Int) (c * 7)), (c : Int) + 1)
    else
      varintLoop arr (c + 1) (orW 64 x (shlW 64 ((v.val &&& 0x7F : Nat) : Int) (c * 7)))

/-- Function `varint`: value and number of bytes read. -/
def varint (arr : Slice) : Int × Int := varintLoop arr.data 0 0

/-- Loop of `countVarintByte`, `n` being the count so far. -/
def countVarintLoop : List Byte → Int → Int
  | [], n => n
  | v :: src, n => if v.val &&& 0x80 = 0 then n + 1 else countVarintLoop src (n + 1)

/-- Function `countVarintByte`. -/
def countVarintByte (src : Slice) : Int := countVarintLoop src.data 0

def zze32 (i : Int) : Int := xorW 32 (sarW i 31) (shlW 32 i 1)

def zzd32 (i : Int) : Int := xorW 32 (sarW i 1) (negW 32 (andW 32 i 1))

def zze64 (i : Int) : Int := xorW 64 (sarW i 63) (shlW 64 i 1)

def zzd64 (i : Int) : Int := xorW 64 (sarW i 1) (negW 64 (andW 64 i 1))

/-- Function `ReadField`: the count, the error and the field as left in `*f`.
Of the sums on `n`, only `n + int(l)` can leave the range of `int` (hence `addInt`):
`1 + c`, `n + 8` and `n + 4` are bounded by the length of a slice plus nine. -/
def ReadField (src : Slice) (f : Field) : Exec (Int × Option Error × Field) :=
  match src.data with
  | [] => .ret (0, none, f)
  | b :: _ =>
    let fn := (tag b).1
    let wire := (tag b).2
    let n : Int := 1
    let f1 : Field := ⟨fn, wire, f.Length, f.data⟩
    if wire = _varint then
      match src.sliceFrom n with
      | none => .panic
      | some s =>
        let c := countVarintByte s
        if c < 1 then .ret (0, some .varintLengthLt1, f1)
        else
          match src.slice n (n + c) with
          | none => .panic
          | some d => .ret (n + c, none, ⟨fn, wire, c, d⟩)
    else if wire = _64bit then
      match src.slice n (n + 8) with
      | none => .panic
      | some d => .ret (n + 8, none, ⟨fn, wire, 8, d⟩)
    else if wire = _lengthDelimited then
      match src.sliceFrom n with
      | none => .panic
      | some s =>
        let l := (varint s).1
        let c := (varint s).2
        let n1 := n + c
        match src.slice n1 (addInt n1 l) with
        | none => .panic
        | some d => .ret (addInt n1 l, none, ⟨fn, wire, l, d⟩)
    else if wire = _32bit then
      match src.slice n (n + 4) with
      | none => .panic
      | some d => .ret (n + 4, none, ⟨fn, wire, 4, d⟩)
    else .ret (-1, some (.unknownWireType wire), f1)

/-- Method `AsInt64`. -/
def AsInt64 (f : Field) : Exec (Int × Option Error) :=
  if f.WireType ≠ _varint then .ret (0, some .notVarint)
  else .ret ((varint f.data).1, none)

/-- Method `AsSint64`. -/
def AsSint64 (f : Field) : Exec (Int × Option Error) :=
  if f.WireType ≠ _varint then .ret (0, some .notVarint)
  else .ret (zzd64 (varint f.data).1, none)

/-- Method `AsString`; a Go string is its sequence of bytes. -/
def AsString (f : Field) : Exec (List Byte × Option Error) :=
  if f.WireType ≠ _lengthDelimited then .ret ([], some .notLengthDelimited)
  else .ret (f.data.data, none)

/-- Loop of `AsEmbedded`, at most `fuel` iterations; a nil list is `none`. -/
def embeddedLoop (data : Slice) : Nat → Int → List Field → Exec (Option (List Field) × Option Error)
  | 0, _, _ => .timeout
  | fuel + 1, idx, lst =>
    match data.sliceFrom idx with
    | none => .panic
    | some s =>
      match ReadField s Field.zero with
      | .panic => .panic
      | .timeout => .timeout
      | .ret (_, some err, _) => .ret (none, some err)
      | .ret (n, none, fd) =>
        if n = 0 then .ret (some lst, none)
        else embeddedLoop data fuel (idx + n) (lst ++ [fd])

/-- Method `AsEmbedded`.  Every iteration but the last advances `idx` by at least one
and `idx` may not pass `len(f.data)`, so `len(f.data) + 1` iterations are enough. -/
def AsEmbedded (f : Field) : Exec (Option (List Field) × Option Error) :=
  if f.WireType ≠ _lengthDelimited then .ret (none, some .notLengthDelimited)
  else embeddedLoop f.data (f.data.data.length + 1) 0 []

/-- Go `binary.LittleEndian.Uint32`: panics on fewer than four bytes. -/
def leUint32 (b : Slice) : Option Nat :=
  match b.data with
  | b0 :: b1 :: b2 :: b3 :: _ =>
    some (b0.val ||| b1.val <<< 8 ||| b2.val <<< 16 ||| b3.val <<< 24)
  | _ => none

/-- Go `binary.LittleEndian.Uint64`: panics on fewer than eight bytes. -/
def leUint64 (b : Slice) : Option Nat :=
  match b.data with
  | b0 :: b1 :: b2 :: b3 :: b4 :: b5 :: b6 :: b7 :: _ =>
    some (b0.val ||| b1.val <<< 8 ||| b2.val <<< 16 ||| b3.val <<< 24 |||
          b4.val <<< 32 ||| b5.val <<< 40 ||| b6.val <<< 48 ||| b7.val <<< 56)
  | _ => none

/-- A `float32` or `float64`, held as its IEEE-754 bit pattern
(`math.Float32frombits` and `math.Float64frombits` are bijections on bit patterns). -/
structure FloatBits where
  bits : Nat
deriving DecidableEq

/-- Method `AsFloat`. -/
def AsFloat (f : Field) : Exec (FloatBits × Option Error) :=
  if f.WireType ≠ _32bit then .ret (⟨0⟩, some .not32bit)
  else
    match leUint32 f.data with
    | none => .panic
    | some b => .ret (⟨b⟩, none)

/-- Method `AsDouble`. -/
def AsDouble (f : Field) : Exec (FloatBits × Option Error) :=
  if f.WireType ≠ _64bit then .ret (⟨0⟩, some .not64bit)
  else
    match leUint64 f.data with
    | none => .panic
    | some b => .ret (⟨b⟩, none)

/-- Method `AsFixed32`. -/
def AsFixed32 (f : Field) : Exec (Int × Option Error) :=
  if f.WireType ≠ _32bit then .ret (0, some .not32bit)
  else
    match leUint32 f.data with
    | none => .panic
    | some b => .ret (toI 32 b, none)

/-- Method `AsFixed64`. -/
def AsFixed64 (f : Field) : Exec (Int × Option Error) :=
  if f.WireType ≠ _64bit then .ret (0, some .not64bit)
  else
    match leUint64 f.data with
    | none => .panic
    | some b => .ret (toI 64 b, none)

/-! ## Encoder used to state the round trips

The repository has no write path (its seed buffers come from the protobuf library), so
the encoding side of a round trip is the standard one. -/

/-- Minimal base-128 encoding of a natural number: seven bits a byte, low group first,
bit 7 set on every byte but the last. -/
def encodeVarint (v : Nat) : List Byte :=
  if h : v < 128 then [byte v] else byte (v % 128 + 128) :: encodeVarint (v / 128)
termination_by v
decreasing_by omega

/-- A well-formed payload for wire type `w`: an encoded varint for VARINT, eight bytes
for FIXED64, four bytes for FIXED32, and for LENGTH_DELIMITED the encoded length of a body
followed by that body. -/
def WellFormedPayload (w : Nat) (p : List Byte) : Prop :=
  (w = 0 ∧ ∃ v : Nat, p = encodeVarint v) ∨
  (w = 1 ∧ p.length = 8) ∨
  (w = 2 ∧ ∃ body : List Byte, p = encodeVarint body.length ++ body) ∨
  (w = 5 ∧ p.length = 4)

/-- The fields `fs` frame the payload `p` along the offsets `os`: every field is what
`ReadField` returns, without error, on `p` sliced from its offset, the count returned is
the distance to the next offset, the offsets increase, and the last one is `len(p)`. -/
def Framed (p : Slice) : List Int → List Field → Prop
  | [o], [] => o = p.len
  | o :: o1 :: os, fd :: fs =>
    o < o1 ∧
    (∃ s, p.sliceFrom o = some s ∧ ReadField s Field.zero = .ret (o1 - o, none, fd)) ∧
    Framed p (o1 :: os) fs
  | _, _ => False

/-- The number spelled by the 7-bit groups of a list of bytes, low group first:
the sum of `(b_j & 0x7F) * 2^(7*j)`. -/
def groupSum : List Byte → Nat
  | [] => 0
  | b :: l => (b.val &&& 0x7F) + 2 ^ 7 * groupSum l

/-! ## Bytes and machine arithmetic -/

theorem byte_val (n : Nat) (h : n < 256) : (byte n).val = n := by
  simp [byte, Nat.mod_eq_of_lt h]

set_option maxRecDepth 100000 in
theorem hiBit_eq_zero_iff (b : Byte) : b.val &&& 0x80 = 0 ↔ b.val < 128 := by
  revert b; decide

theorem loBits_eq (b : Byte) : b.val &&& 0x7F = b.val % 128 :=
  Nat.and_pow_two_sub_one_eq_mod b.val 7

set_option maxRecDepth 100000 in
theorem tag_eq (b : Byte) : tag b = (((b.val / 8 : Nat) : Int), ((b.val % 8 : Nat) : Int)) := by
  revert b; decide

theorem toU64_natCast (n : Nat) (h : n < 2 ^ 64) : toU 64 (n : Int) = n := by
  unfold toU
  have h1 : ((n : Int) % 2 ^ 64) = n :=
    Int.emod_eq_of_lt (Int.natCast_nonneg n) (by exact_mod_cast h)
  rw [h1, Int.toNat_natCast]

theorem toI64_of_lt (n : Nat) (h : n < 2 ^ 63) : toI 64 n = n := by
  unfold toI
  have h1 : n % 2 ^ 64 = n := Nat.mod_eq_of_lt (by omega)
  rw [h1, if_pos (by simpa using h)]

/-- Or-ing a shifted group above an accumulator that fits below the shift adds it, as
long as the sum stays a non-negative `int64`. -/
theorem orW_shlW_add (x b s : Nat) (hx : x < 2 ^ s) (hs : x + b * 2 ^ s < 2 ^ 63) :
    orW 64 (x : Int) (shlW 64 (b : Int) s) = ((x + b * 2 ^ s : Nat) : Int) := by
  have hb : b * 2 ^ s < 2 ^ 63 := by omega
  have hb64 : b < 2 ^ 64 := by
    have : 1 ≤ 2 ^ s := Nat.one_le_two_pow
    nlinarith
  have h1 : shlW 64 (b : Int) s = ((b * 2 ^ s : Nat) : Int) := by
    unfold shlW
    rw [toU64_natCast b hb64, Nat.shiftLeft_eq, toI64_of_lt _ hb]
  rw [h1]
  unfold orW
  rw [toU64_natCast x (by omega), toU64_natCast _ (by omega)]
  have h2 : x ||| b * 2 ^ s = x + b * 2 ^ s := by
    rw [Nat.lor_comm, Nat.mul_comm, ← Nat.mul_add_lt_is_or hx, Nat.add_comm]
  rw [h2, toI64_of_lt _ hs]

/-! ## The varint encoder -/

theorem encodeVarint_lt (v : Nat) (h : v < 128) : encodeVarint v = [byte v] := by
  rw [encodeVarint, dif_pos h]

theorem encodeVarint_ge (v : Nat) (h : ¬ v < 128) :
    encodeVarint v = byte (v % 128 + 128) :: encodeVarint (v / 128) := by
  rw [encodeVarint, dif_neg h]

theorem encodeVarint_ne_nil (v : Nat) : encodeVarint v ≠ [] := by
  by_cases h : v < 128
  · simp [encodeVarint_lt v h]
  · simp [encodeVarint_ge v h]

/-- The loop of `varint` on an encoded number, from any index and accumulator that
leave room for it. -/
theorem varintLoop_encode (v : Nat) : ∀ (c x : Nat) (rest : List Byte),
    x < 2 ^ (c * 7) → x + v * 2 ^ (c * 7) < 2 ^ 63 →
    varintLoop (encodeVarint v ++ rest) c (x : Int)
      = (((x + v * 2 ^ (c * 7) : Nat) : Int), (c : Int) + ((encodeVarint v).length : Int)) := by
  induction v using Nat.strong_induction_on with
  | _ v ih =>
    intro c x rest hx hs
    by_cases h : v < 128
    · rw [encodeVarint_lt v h]
      have hv : (byte v).val = v := byte_val v (by omega)
      have hb : (byte v).val &&& 0x80 = 0 := (hiBit_eq_zero_iff _).2 (by omega)
      rw [List.singleton_append, varintLoop, if_pos hb, hv, orW_shlW_add x v (c * 7) hx hs]
      simp
    · rw [encodeVarint_ge v h]
      have hv : (byte (v % 128 + 128)).val = v % 128 + 128 := byte_val _ (by omega)
      have hb : ¬ ((byte (v % 128 + 128)).val &&& 0x80 = 0) := by
        rw [hiBit_eq_zero_iff]; omega
      have hlo : (byte (v % 128 + 128)).val &&& 0x7F = v % 128 := by
        rw [loBits_eq, hv]; omega
      have hp : 2 ^ ((c + 1) * 7) = 128 * 2 ^ (c * 7) := by
        rw [Nat.add_mul, Nat.pow_add, Nat.mul_comm]
      have hdm : v = 128 * (v / 128) + v % 128 := (Nat.div_add_mod v 128).symm
      have hpos : 0 < 2 ^ (c * 7) := Nat.two_pow_pos _
      have hsum : x + v % 128 * 2 ^ (c * 7) + v / 128 * 2 ^ ((c + 1) * 7)
          = x + v * 2 ^ (c * 7) := by
        rw [hp]
        generalize 2 ^ (c * 7) = p
        generalize v / 128 = q at hdm
        generalize v % 128 = r at hdm
        subst hdm; ring
      have hx1 : x + v % 128 * 2 ^ (c * 7) < 2 ^ ((c + 1) * 7) := by
        rw [hp]
        have : v % 128 < 128 := Nat.mod_lt _ (by decide)
        nlinarith
      have hs1 : x + v % 128 * 2 ^ (c * 7) ≤ x + v * 2 ^ (c * 7) := by
        have : v % 128 ≤ v := Nat.mod_le _ _
        have := Nat.mul_le_mul_right (2 ^ (c * 7)) this
        omega
      rw [List.cons_append, varintLoop, if_neg hb, hlo,
        orW_shlW_add x (v % 128) (c * 7) hx (by omega),
        ih (v / 128) (by omega) (c + 1) _ rest hx1 (by rw [hsum]; exact hs), hsum]
      simp
      ring

theorem countVarintLoop_encode (v : Nat) : ∀ (n : Int) (rest : List Byte),
    countVarintLoop (encodeVarint v ++ rest) n = n + ((encodeVarint v).length : Int) := by
  induction v using Nat.strong_induction_on with
  | _ v ih =>
    intro n rest
    by_cases h : v < 128
    · have hb : (byte v).val &&& 0x80 = 0 :=
        (hiBit_eq_zero_iff _).2 (by rw [byte_val v (by omega)]; exact h)
      rw [encodeVarint_lt v h, List.singleton_append, countVarintLoop, if_pos hb]
      simp
    · have hb : ¬ ((byte (v % 128 + 128)).val &&& 0x80 = 0) := by
        rw [hiBit_eq_zero_iff, byte_val _ (by omega)]; omega
      rw [encodeVarint_ge v h, List.cons_append, countVarintLoop, if_neg hb,
        ih (v / 128) (by omega)]
      simp
      ring

/-! ## Slice expressions on a buffer with a first byte -/

theorem sliceFrom_cons_one (b : Byte) (l sp : List Byte) :
    Slice.sliceFrom ⟨b :: l, sp⟩ 1 = some ⟨l, sp⟩ := by
  simp [Slice.sliceFrom, Slice.len]

theorem slice_cons (b : Byte) (l sp : List Byte) (c k : Nat)
    (h : c + k ≤ l.length + sp.length) :
    Slice.slice ⟨b :: l, sp⟩ (1 + (c : Int)) (1 + (c : Int) + (k : Int))
      = some ⟨((l ++ sp).drop c).take k, (l ++ sp).drop (c + k)⟩ := by
  have h1 : (1 + (c : Int)).toNat = c + 1 := by omega
  have h2 : (1 + (c : Int) + (k : Int) - (1 + (c : Int))).toNat = k := by omega
  have h3 : (1 + (c : Int) + (k : Int)).toNat = (c + k) + 1 := by omega
  have hc : (0 : Int) ≤ 1 + (c : Int) ∧ 1 + (c : Int) ≤ 1 + (c : Int) + (k : Int) ∧
      1 + (c : Int) + (k : Int) ≤ (Slice.mk (b :: l) sp).cap := by
    simp only [Slice.cap, List.length_cons]
    push_cast
    omega
  rw [Slice.slice, if_pos hc, h1, h2, h3]
  simp

/-! ## `ReadField` branch by branch -/

theorem ReadField_nil (sp : List Byte) (f : Field) :
    ReadField ⟨[], sp⟩ f = .ret (0, none, f) := rfl

theorem ReadField_varint (b : Byte) (l sp : List Byte) (f : Field) (h : b.val % 8 = 0) :
    ReadField ⟨b :: l, sp⟩ f =
      if countVarintLoop l 0 < 1 then
        .ret (0, some .varintLengthLt1, ⟨((b.val / 8 : Nat) : Int), 0, f.Length, f.data⟩)
      else
        match Slice.slice ⟨b :: l, sp⟩ 1 (1 + countVarintLoop l 0) with
        | none => .panic
        | some d =>
          .ret (1 + countVarintLoop l 0, none,
            ⟨((b.val / 8 : Nat) : Int), 0, countVarintLoop l 0, d⟩) := by
  simp only [ReadField, tag_eq, h, _varint, sliceFrom_cons_one, countVarintByte]
  rfl

theorem ReadField_64bit (b : Byte) (l sp : List Byte) (f : Field) (h : b.val % 8 = 1) :
    ReadField ⟨b :: l, sp⟩ f =
      match Slice.slice ⟨b :: l, sp⟩ 1 (1 + 8) with
      | none => .panic
      | some d => .ret (1 + 8, none, ⟨((b.val / 8 : Nat) : Int), 1, 8, d⟩) := by
  simp only [ReadField, tag_eq, h, _varint, _64bit]
  rfl

theorem ReadField_lengthDelimited (b : Byte) (l sp : List Byte) (f : Field)
    (h : b.val % 8 = 2) :
    ReadField ⟨b :: l, sp⟩ f =
      match Slice.slice ⟨b :: l, sp⟩ (1 + (varintLoop l 0 0).2)
          (addInt (1 + (varintLoop l 0 0).2) (varintLoop l 0 0).1) with
      | none => .panic
      | some d =>
        .ret (addInt (1 + (varintLoop l 0 0).2) (varintLoop l 0 0).1, none,
          ⟨((b.val / 8 : Nat) : Int), 2, (varintLoop l 0 0).1, d⟩) := by
  simp only [ReadField, tag_eq, h, _varint, _64bit, _lengthDelimited, sliceFrom_cons_one,
    varint]
  rfl

theorem ReadField_32bit (b : Byte) (l sp : List Byte) (f : Field) (h : b.val % 8 = 5) :
    ReadField ⟨b :: l, sp⟩ f =
      match Slice.slice ⟨b :: l, sp⟩ 1 (1 + 4) with
      | none => .panic
      | some d => .ret (1 + 4, none, ⟨((b.val / 8 : Nat) : Int), 5, 4, d⟩) := by
  simp only [ReadField, tag_eq, h, _varint, _64bit, _lengthDelimited, _32bit]
  rfl

theorem ReadField_unknown (b : Byte) (l sp : List Byte) (f : Field)
    (h : b.val % 8 ≠ 0 ∧ b.val % 8 ≠ 1 ∧ b.val % 8 ≠ 2 ∧ b.val % 8 ≠ 5) :
    ReadField ⟨b :: l, sp⟩ f =
      .ret (-1, some (.unknownWireType ((b.val % 8 : Nat) : Int)),
        ⟨((b.val / 8 : Nat) : Int), ((b.val % 8 : Nat) : Int), f.Length, f.data⟩) := by
  obtain ⟨h0, h1, h2, h5⟩ := h
  have e0 : ¬ (((b.val % 8 : Nat) : Int) = 0) := by exact_mod_cast h0
  have e1 : ¬ (((b.val % 8 : Nat) : Int) = 1) := by exact_mod_cast h1
  have e2 : ¬ (((b.val % 8 : Nat) : Int) = 2) := by exact_mod_cast h2
  have e5 : ¬ (((b.val % 8 : Nat) : Int) = 5) := by exact_mod_cast h5
  simp only [ReadField, tag_eq, _varint, _64bit, _lengthDelimited, _32bit, e0, e1, e2, e5,
    if_false]

/-! ## When `ReadField` returns a field -/

theorem addInt_eq (a b : Int) (h0 : 0 ≤ a + b) (h1 : a + b < 2 ^ 63) : addInt a b = a + b := by
  obtain ⟨m, hm⟩ := Int.eq_ofNat_of_zero_le h0
  have hm1 : m < 2 ^ 63 := by
    have : (m : Int) < 2 ^ 63 := by rw [← hm]; exact h1
    exact_mod_cast this
  rw [addInt, hm, toU64_natCast m (by omega), toI64_of_lt m hm1]

theorem countVarintLoop_bounds (l : List Byte) : ∀ n : Int,
    countVarintLoop l n ≤ n + (l.length : Int) ∧ (l ≠ [] → n + 1 ≤ countVarintLoop l n) := by
  induction l with
  | nil => intro n; simp [countVarintLoop]
  | cons v l ih =>
    intro n
    rw [countVarintLoop]
    split
    · simp only [List.length_cons]
      push_cast
      constructor
      · omega
      · intro _; omega
    · have h := ih (n + 1)
      simp only [List.length_cons]
      push_cast
      constructor
      · omega
      · intro _
        by_cases hl : l = []
        · subst hl; simp [countVarintLoop]
        · have := h.2 hl
          omega

theorem varintLoop_count_bounds (l : List Byte) : ∀ (c : Nat) (x : Int),
    0 ≤ (varintLoop l c x).2 ∧ (varintLoop l c x).2 ≤ (c : Int) + (l.length : Int) := by
  induction l with
  | nil => intro c x; simp [varintLoop]
  | cons v l ih =>
    intro c x
    rw [varintLoop]
    split
    · simp only [List.length_cons]
      push_cast
      omega
    · have h := ih (c + 1) (orW 64 x (shlW 64 ((v.val &&& 0x7F : Nat) : Int) (c * 7)))
      simp only [List.length_cons]
      push_cast at h ⊢
      omega

theorem ReadField_varint_ok (b : Byte) (l sp : List Byte) (f : Field) (h : b.val % 8 = 0)
    (hl : l ≠ []) :
    ∃ k : Nat, 1 ≤ k ∧ k ≤ l.length ∧ countVarintLoop l 0 = (k : Int) ∧
      ReadField ⟨b :: l, sp⟩ f
        = .ret (1 + (k : Int), none,
            ⟨((b.val / 8 : Nat) : Int), 0, (k : Int), ⟨(l ++ sp).take k, (l ++ sp).drop k⟩⟩) := by
  have hb := countVarintLoop_bounds l 0
  have h1 := hb.2 hl
  obtain ⟨k, hk⟩ := Int.eq_ofNat_of_zero_le (show 0 ≤ countVarintLoop l 0 by omega)
  refine ⟨k, by omega, by omega, hk, ?_⟩
  have hs := slice_cons b l sp 0 k (by omega)
  simp only [Nat.cast_zero, add_zero, List.drop_zero, zero_add] at hs
  rw [ReadField_varint _ _ _ _ h, if_neg (by omega), hk, hs]

theorem ReadField_64bit_ok (b : Byte) (l sp : List Byte) (f : Field) (h : b.val % 8 = 1)
    (hl : 8 ≤ l.length + sp.length) :
    ReadField ⟨b :: l, sp⟩ f
      = .ret (9, none, ⟨((b.val / 8 : Nat) : Int), 1, 8, ⟨(l ++ sp).take 8, (l ++ sp).drop 8⟩⟩) := by
  have hs := slice_cons b l sp 0 8 (by omega)
  simp only [Nat.cast_zero, add_zero, List.drop_zero, zero_add, Nat.cast_ofNat] at hs
  rw [ReadField_64bit _ _ _ _ h, hs]
  rfl

theorem ReadField_32bit_ok (b : Byte) (l sp : List Byte) (f : Field) (h : b.val % 8 = 5)
    (hl : 4 ≤ l.length + sp.length) :
    ReadField ⟨b :: l, sp⟩ f
      = .ret (5, none, ⟨((b.val / 8 : Nat) : Int), 5, 4, ⟨(l ++ sp).take 4, (l ++ sp).drop 4⟩⟩) := by
  have hs := slice_cons b l sp 0 4 (by omega)
  simp only [Nat.cast_zero, add_zero, List.drop_zero, zero_add, Nat.cast_ofNat] at hs
  rw [ReadField_32bit _ _ _ _ h, hs]
  rfl

theorem ReadField_lengthDelimited_ok (b : Byte) (l sp : List Byte) (f : Field)
    (h : b.val % 8 = 2) (c k : Nat) (hv : varintLoop l 0 0 = ((k : Int), (c : Int)))
    (hl : c + k ≤ l.length + sp.length) (hlt : 1 + c + k < 2 ^ 63) :
    ReadField ⟨b :: l, sp⟩ f
      = .ret (1 + (c : Int) + (k : Int), none,
          ⟨((b.val / 8 : Nat) : Int), 2, (k : Int),
            ⟨((l ++ sp).drop c).take k, (l ++ sp).drop (c + k)⟩⟩) := by
  have ha : addInt (1 + (c : Int)) (k : Int) = 1 + (c : Int) + (k : Int) :=
    addInt_eq _ _ (by omega) (by
      have : ((1 + c + k : Nat) : Int) < 2 ^ 63 := by exact_mod_cast hlt
      push_cast at this
      exact this)
  rw [ReadField_lengthDelimited _ _ _ _ h, hv]
  simp only [ha, slice_cons b l sp c k hl]

/-- Whatever `ReadField` returns on a non-empty buffer, the field number and the wire
type it leaves in the field are those of the first byte. -/
theorem ReadField_tag (b : Byte) (l sp : List Byte) (f0 f : Field) (n : Int)
    (e : Option Error) (h : ReadField ⟨b :: l, sp⟩ f0 = .ret (n, e, f)) :
    f.FieldNum = ((b.val / 8 : Nat) : Int) ∧ f.WireType = ((b.val % 8 : Nat) : Int) := by
  by_cases h0 : b.val % 8 = 0
  · rw [ReadField_varint _ _ _ _ h0] at h
    split at h
    · simp only [Exec.ret.injEq, Prod.mk.injEq] at h
      rw [← h.2.2, h0]; exact ⟨rfl, rfl⟩
    · split at h
      · simp at h
      · simp only [Exec.ret.injEq, Prod.mk.injEq] at h
        rw [← h.2.2, h0]; exact ⟨rfl, rfl⟩
  by_cases h1 : b.val % 8 = 1
  · rw [ReadField_64bit _ _ _ _ h1] at h
    split at h
    · simp at h
    · simp only [Exec.ret.injEq, Prod.mk.injEq] at h
      rw [← h.2.2, h1]; exact ⟨rfl, rfl⟩
  by_cases h2 : b.val % 8 = 2
  · rw [ReadField_lengthDelimited _ _ _ _ h2] at h
    split at h
    · simp at h
    · simp only [Exec.ret.injEq, Prod.mk.injEq] at h
      rw [← h.2.2, h2]; exact ⟨rfl, rfl⟩
  by_cases h5 : b.val % 8 = 5
  · rw [ReadField_32bit _ _ _ _ h5] at h
    split at h
    · simp at h
    · simp only [Exec.ret.injEq, Prod.mk.injEq] at h
      rw [← h.2.2, h5]; exact ⟨rfl, rfl⟩
  rw [ReadField_unknown _ _ _ _ ⟨h0, h1, h2, h5⟩] at h
  simp only [Exec.ret.injEq, Prod.mk.injEq] at h
  rw [← h.2.2]; exact ⟨rfl, rfl⟩

/-- Sufficient conditions, by wire type, for `ReadField` to return a field. -/
theorem ReadField_returns (b : Byte) (l sp : List Byte) (f : Field)
    (h : (b.val % 8 = 0 ∧ l ≠ []) ∨ (b.val % 8 = 1 ∧ 8 ≤ l.length + sp.length) ∨
      (b.val % 8 = 5 ∧ 4 ≤ l.length + sp.length) ∨
      (b.val % 8 = 2 ∧ ∃ c k : Nat, varintLoop l 0 0 = ((k : Int), (c : Int)) ∧
        c + k ≤ l.length + sp.length ∧ 1 + c + k < 2 ^ 63)) :
    ∃ n fd, ReadField ⟨b :: l, sp⟩ f = .ret (n, none, fd) := by
  rcases h with ⟨h0, hl⟩ | ⟨h1, hl⟩ | ⟨h5, hl⟩ | ⟨h2, c, k, hv, hl, hlt⟩
  · obtain ⟨k, _, _, _, hr⟩ := ReadField_varint_ok b l sp f h0 hl
    exact ⟨_, _, hr⟩
  · exact ⟨_, _, ReadField_64bit_ok b l sp f h1 hl⟩
  · exact ⟨_, _, ReadField_32bit_ok b l sp f h5 hl⟩
  · exact ⟨_, _, ReadField_lengthDelimited_ok b l sp f h2 c k hv hl hlt⟩

theorem length_encodeVarint_pos (v : Nat) : 0 < (encodeVarint v).length :=
  List.length_pos.2 (encodeVarint_ne_nil v)

/-! ## Ranges of the machine integers -/

theorem toI64_range (n : Nat) : -2 ^ 63 ≤ toI 64 n ∧ toI 64 n < 2 ^ 63 := by
  unfold toI
  have h : n % 2 ^ 64 < 2 ^ 64 := Nat.mod_lt _ (by decide)
  split <;> rename_i h1
  · simp only [Nat.reduceSub] at h1
    omega
  · simp only [Nat.reduceSub] at h1
    omega

theorem wrap64_spec (x : Int) :
    ∃ k : Int, toI 64 (toU 64 x) = x + k * 2 ^ 64 := by
  have hpos : (0 : Int) < 2 ^ 64 := by norm_num
  have hnn : 0 ≤ x % 2 ^ 64 := Int.emod_nonneg _ (by norm_num)
  have hlt : x % 2 ^ 64 < 2 ^ 64 := Int.emod_lt_of_pos _ hpos
  have hu : ((toU 64 x : Nat) : Int) = x % 2 ^ 64 := by
    unfold toU
    exact Int.toNat_of_nonneg hnn
  have hu1 : toU 64 x < 2 ^ 64 := by
    have : ((toU 64 x : Nat) : Int) < 2 ^ 64 := by rw [hu]; exact hlt
    exact_mod_cast this
  have hmod : toU 64 x % 2 ^ 64 = toU 64 x := Nat.mod_eq_of_lt hu1
  have hdm : x % 2 ^ 64 = x - 2 ^ 64 * (x / 2 ^ 64) := by
    have := Int.emod_add_ediv x (2 ^ 64)
    omega
  unfold toI
  rw [hmod, hu]
  split
  · exact ⟨-(x / 2 ^ 64), by rw [hdm]; ring⟩
  · exact ⟨-(x / 2 ^ 64) - 1, by rw [hdm]; ring⟩

theorem varintLoop_value_range (l : List Byte) : ∀ (c : Nat) (x : Int),
    -2 ^ 63 ≤ (varintLoop l c x).1 ∧ (varintLoop l c x).1 < 2 ^ 63 := by
  induction l with
  | nil => intro c x; simp [varintLoop]
  | cons v l ih =>
    intro c x
    rw [varintLoop]
    split
    · exact toI64_range _
    · exact ih _ _

/-- A declared length that is negative, or larger than what is left up to the capacity,
puts the slice expression of the LENGTH_DELIMITED branch out of range. -/
theorem slice_lengthDelimited_none (b : Byte) (l sp : List Byte) (c lv : Int)
    (hc : 0 ≤ c) (hr : -2 ^ 63 ≤ lv ∧ lv < 2 ^ 63)
    (h : lv < 0 ∨ ((l.length : Int) + (sp.length : Int)) - c < lv) :
    Slice.slice ⟨b :: l, sp⟩ (1 + c) (addInt (1 + c) lv) = none := by
  obtain ⟨k, hk⟩ := wrap64_spec (1 + c + lv)
  have hrange := toI64_range (toU 64 (1 + c + lv))
  have ha : addInt (1 + c) lv = 1 + c + lv + k * 2 ^ 64 := hk
  have hrange1 : -2 ^ 63 ≤ addInt (1 + c) lv ∧ addInt (1 + c) lv < 2 ^ 63 := hrange
  rw [Slice.slice, if_neg]
  simp only [Slice.cap, List.length_cons]
  push_cast
  rw [ha] at hrange1 ⊢
  omega

/-! ## Progress of `ReadField` and the loop of `AsEmbedded` -/

theorem slice_some_bounds (s d : Slice) (lo hi : Int) (h : s.slice lo hi = some d) :
    0 ≤ lo ∧ lo ≤ hi ∧ hi ≤ s.cap := by
  unfold Slice.slice at h
  by_contra hn
  rw [if_neg hn] at h
  exact Option.noConfusion h

/-- A field returned from a non-empty buffer comes with a count of at least one. -/
theorem ReadField_count_pos (b : Byte) (l sp : List Byte) (f0 f : Field) (n : Int)
    (h : ReadField ⟨b :: l, sp⟩ f0 = .ret (n, none, f)) : 1 ≤ n := by
  by_cases h0 : b.val % 8 = 0
  · rw [ReadField_varint _ _ _ _ h0] at h
    split at h
    · simp at h
    · rename_i hc
      split at h
      · simp at h
      · simp only [Exec.ret.injEq, Prod.mk.injEq] at h
        omega
  by_cases h1 : b.val % 8 = 1
  · rw [ReadField_64bit _ _ _ _ h1] at h
    split at h
    · simp at h
    · simp only [Exec.ret.injEq, Prod.mk.injEq] at h
      omega
  by_cases h2 : b.val % 8 = 2
  · rw [ReadField_lengthDelimited _ _ _ _ h2] at h
    split at h
    · simp at h
    · rename_i d hd
      have hb := slice_some_bounds _ _ _ _ hd
      have hc := (varintLoop_count_bounds l 0 0).1
      simp only [Exec.ret.injEq, Prod.mk.injEq] at h
      omega
  by_cases h5 : b.val % 8 = 5
  · rw [ReadField_32bit _ _ _ _ h5] at h
    split at h
    · simp at h
    · simp only [Exec.ret.injEq, Prod.mk.injEq] at h
      omega
  rw [ReadField_unknown _ _ _ _ ⟨h0, h1, h2, h5⟩] at h
  simp at h

theorem ReadField_count_zero (s : Slice) (f0 f : Field)
    (h : ReadField s f0 = .ret (0, none, f)) : s.data = [] := by
  obtain ⟨d, sp⟩ := s
  cases d with
  | nil => rfl
  | cons b l =>
    have := ReadField_count_pos b l sp f0 f 0 h
    omega

theorem sliceFrom_some (p s : Slice) (idx : Int) (h : p.sliceFrom idx = some s) :
    0 ≤ idx ∧ idx ≤ p.len ∧ (s.data = [] → idx = p.len) ∧ (s.data ≠ [] → idx < p.len) := by
  unfold Slice.sliceFrom at h
  by_cases hc : 0 ≤ idx ∧ idx ≤ p.len
  · rw [if_pos hc] at h
    simp only [Option.some.injEq] at h
    subst h
    simp only [Slice.len] at hc ⊢
    refine ⟨hc.1, hc.2, ?_, ?_⟩
    · intro he
      have := List.drop_eq_nil_iff.1 he
      omega
    · intro he
      have : ¬ p.data.length ≤ idx.toNat := fun hle => he (List.drop_eq_nil_iff.2 hle)
      omega
  · rw [if_neg hc] at h
    exact Option.noConfusion h

theorem ReadField_ne_timeout (s : Slice) (f0 : Field) : ReadField s f0 ≠ .timeout := by
  intro hr
  obtain ⟨d, sp⟩ := s
  cases d with
  | nil => rw [ReadField_nil] at hr; exact Exec.noConfusion hr
  | cons b l =>
    by_cases h0 : b.val % 8 = 0
    · rw [ReadField_varint _ _ _ _ h0] at hr
      split at hr
      · exact Exec.noConfusion hr
      · split at hr <;> exact Exec.noConfusion hr
    by_cases h1 : b.val % 8 = 1
    · rw [ReadField_64bit _ _ _ _ h1] at hr
      split at hr <;> exact Exec.noConfusion hr
    by_cases h2 : b.val % 8 = 2
    · rw [ReadField_lengthDelimited _ _ _ _ h2] at hr
      split at hr <;> exact Exec.noConfusion hr
    by_cases h5 : b.val % 8 = 5
    · rw [ReadField_32bit _ _ _ _ h5] at hr
      split at hr <;> exact Exec.noConfusion hr
    rw [ReadField_unknown _ _ _ _ ⟨h0, h1, h2, h5⟩] at hr
    exact Exec.noConfusion hr

theorem embeddedLoop_out_of_range (data : Slice) (fuel : Nat) (idx : Int) (lst : List Field)
    (hs : data.sliceFrom idx = none) : embeddedLoop data (fuel + 1) idx lst = .panic := by
  rw [embeddedLoop, hs]

theorem embeddedLoop_panic (data s : Slice) (fuel : Nat) (idx : Int) (lst : List Field)
    (hs : data.sliceFrom idx = some s) (hr : ReadField s Field.zero = .panic) :
    embeddedLoop data (fuel + 1) idx lst = .panic := by
  rw [embeddedLoop, hs]
  simp only [hr]

theorem embeddedLoop_error (data s : Slice) (fuel : Nat) (idx : Int) (lst : List Field)
    (n : Int) (err : Error) (fd : Field)
    (hs : data.sliceFrom idx = some s) (hr : ReadField s Field.zero = .ret (n, some err, fd)) :
    embeddedLoop data (fuel + 1) idx lst = .ret (none, some err) := by
  rw [embeddedLoop, hs]
  simp only [hr]

theorem embeddedLoop_done (data s : Slice) (fuel : Nat) (idx : Int) (lst : List Field)
    (fd : Field)
    (hs : data.sliceFrom idx = some s) (hr : ReadField s Field.zero = .ret (0, none, fd)) :
    embeddedLoop data (fuel + 1) idx lst = .ret (some lst, none) := by
  rw [embeddedLoop, hs]
  simp only [hr, if_true]

theorem embeddedLoop_step (data s : Slice) (fuel : Nat) (idx : Int) (lst : List Field)
    (n : Int) (fd : Field) (hn : n ≠ 0)
    (hs : data.sliceFrom idx = some s) (hr : ReadField s Field.zero = .ret (n, none, fd)) :
    embeddedLoop data (fuel + 1) idx lst = embeddedLoop data fuel (idx + n) (lst ++ [fd]) := by
  rw [embeddedLoop, hs]
  simp only [hr, if_neg hn]

/-- The loop of `AsEmbedded`, run with enough iterations left, panics, or returns an
error with a nil list, or returns the list it was given extended by fields that frame
the payload from the current offset on. -/
theorem embeddedLoop_spec (data : Slice) : ∀ (fuel : Nat) (idx : Int) (lst : List Field),
    1 ≤ fuel → data.len - idx < fuel →
    embeddedLoop data fuel idx lst = .panic ∨
    (∃ e, embeddedLoop data fuel idx lst = .ret (none, some e)) ∨
    (∃ fs os, embeddedLoop data fuel idx lst = .ret (some (lst ++ fs), none) ∧
      Framed data (idx :: os) fs) := by
  intro fuel
  induction fuel with
  | zero => intro idx lst h1; omega
  | succ fuel ih =>
    intro idx lst _ hfuel
    cases hs : data.sliceFrom idx with
    | none => exact Or.inl (embeddedLoop_out_of_range data fuel idx lst hs)
    | some s =>
      have hb := sliceFrom_some data s idx hs
      cases hr : ReadField s Field.zero with
      | panic => exact Or.inl (embeddedLoop_panic data s fuel idx lst hs hr)
      | timeout => exact absurd hr (ReadField_ne_timeout s _)
      | ret r =>
        obtain ⟨n, e, fd⟩ := r
        cases e with
        | some err => exact Or.inr (Or.inl ⟨err, embeddedLoop_error data s fuel idx lst n err fd hs hr⟩)
        | none =>
          by_cases hn : n = 0
          · subst hn
            rw [embeddedLoop_done data s fuel idx lst fd hs hr]
            refine Or.inr (Or.inr ⟨[], [], by simp, ?_⟩)
            exact hb.2.2.1 (ReadField_count_zero s _ _ hr)
          · rw [embeddedLoop_step data s fuel idx lst n fd hn hs hr]
            have hne : s.data ≠ [] := by
              intro he
              obtain ⟨d, sp⟩ := s
              simp only at he
              subst he
              rw [ReadField_nil] at hr
              simp only [Exec.ret.injEq, Prod.mk.injEq] at hr
              exact hn hr.1.symm
            have hlt := hb.2.2.2 hne
            have hpos : 1 ≤ n := by
              obtain ⟨d, sp⟩ := s
              cases d with
              | nil => exact absurd rfl hne
              | cons b l => exact ReadField_count_pos b l sp _ _ _ hr
            have hf : 1 ≤ fuel := by omega
            rcases ih (idx + n) (lst ++ [fd]) hf (by omega) with hp | ⟨e, he⟩ | ⟨fs, os, hk, hfr⟩
            · exact Or.inl hp
            · exact Or.inr (Or.inl ⟨e, he⟩)
            · refine Or.inr (Or.inr ⟨fd :: fs, (idx + n) :: os, ?_, ?_⟩)
              · rw [hk]; simp
              · refine ⟨by omega, ⟨s, hs, ?_⟩, hfr⟩
                rw [hr]
                simp

/-! ## Terminated and unterminated varints -/

theorem varintLoop_count_zero_iff (l : List Byte) : ∀ (c : Nat) (x : Int),
    (varintLoop l c x).2 = 0 ↔ ∀ b ∈ l, b.val &&& 0x80 ≠ 0 := by
  induction l with
  | nil => intro c x; simp [varintLoop]
  | cons v l ih =>
    intro c x
    rw [varintLoop]
    by_cases hv : v.val &&& 0x80 = 0
    · rw [if_pos hv]
      constructor
      · intro h
        simp only at h
        omega
      · intro h
        exact absurd hv (h v (List.mem_cons_self v l))
    · rw [if_neg hv, ih]
      constructor
      · intro h b hb
        rcases List.mem_cons.1 hb with rfl | hb
        · exact hv
        · exact h b hb
      · intro h b hb
        exact h b (List.mem_cons_of_mem v hb)

theorem varintLoop_unterminated (l : List Byte) (h : ∀ b ∈ l, b.val &&& 0x80 ≠ 0) :
    ∀ (c : Nat) (x : Int), varintLoop l c x = (0, 0) := by
  induction l with
  | nil => intro c x; rfl
  | cons v l ih =>
    intro c x
    rw [varintLoop, if_neg (h v (List.mem_cons_self v l))]
    exact ih (fun b hb => h b (List.mem_cons_of_mem v hb)) _ _

/-- On a run of continuation bytes followed by a terminating byte the loop of `varint`
stops at that byte: what follows it has no part in the result. -/
theorem varintLoop_terminated (pre : List Byte) (b : Byte) (post : List Byte)
    (hpre : ∀ x ∈ pre, x.val &&& 0x80 ≠ 0) (hb : b.val &&& 0x80 = 0) :
    ∀ (c : Nat) (x : Int),
      varintLoop (pre ++ b :: post) c x = varintLoop (pre ++ [b]) c x ∧
      (varintLoop (pre ++ b :: post) c x).2 = (c : Int) + (pre.length : Int) + 1 := by
  induction pre with
  | nil =>
    intro c x
    simp only [List.nil_append, varintLoop, if_pos hb, List.length_nil]
    exact ⟨trivial, by simp⟩
  | cons v pre ih =>
    intro c x
    have hv := hpre v (List.mem_cons_self v pre)
    have h := ih (fun y hy => hpre y (List.mem_cons_of_mem v hy)) (c + 1)
      (orW 64 x (shlW 64 ((v.val &&& 0x7F : Nat) : Int) (c * 7)))
    have e1 : varintLoop ((v :: pre) ++ b :: post) c x
        = varintLoop (pre ++ b :: post) (c + 1)
            (orW 64 x (shlW 64 ((v.val &&& 0x7F : Nat) : Int) (c * 7))) := by
      rw [List.cons_append, varintLoop, if_neg hv]
    have e2 : varintLoop ((v :: pre) ++ [b]) c x
        = varintLoop (pre ++ [b]) (c + 1)
            (orW 64 x (shlW 64 ((v.val &&& 0x7F : Nat) : Int) (c * 7))) := by
      rw [List.cons_append, varintLoop, if_neg hv]
    rw [e1, e2]
    refine ⟨h.1, ?_⟩
    rw [h.2]
    simp only [List.length_cons]
    push_cast
    ring

theorem countVarintLoop_unterminated (l : List Byte) (h : ∀ b ∈ l, b.val &&& 0x80 ≠ 0) :
    ∀ n : Int, countVarintLoop l n = n + (l.length : Int) := by
  induction l with
  | nil => intro n; simp [countVarintLoop]
  | cons v l ih =>
    intro n
    rw [countVarintLoop, if_neg (h v (List.mem_cons_self v l)),
      ih (fun b hb => h b (List.mem_cons_of_mem v hb))]
    simp only [List.length_cons]
    push_cast
    ring

theorem countVarintLoop_terminated (pre : List Byte) (b : Byte) (post : List Byte)
    (hpre : ∀ x ∈ pre, x.val &&& 0x80 ≠ 0) (hb : b.val &&& 0x80 = 0) :
    ∀ n : Int, countVarintLoop (pre ++ b :: post) n = n + (pre.length : Int) + 1 := by
  induction pre with
  | nil => intro n; simp [countVarintLoop, hb]
  | cons v pre ih =>
    intro n
    rw [List.cons_append, countVarintLoop, if_neg (hpre v (List.mem_cons_self v pre)),
      ih (fun y hy => hpre y (List.mem_cons_of_mem v hy))]
    simp only [List.length_cons]
    push_cast
    ring

/-- Where `varint` reports a positive count, `countVarintByte` reports the same. -/
theorem countVarintLoop_eq_varintLoop (l : List Byte) : ∀ (c : Nat) (x n : Int),
    (varintLoop l c x).2 ≠ 0 →
    countVarintLoop l n = n + ((varintLoop l c x).2 - (c : Int)) := by
  induction l with
  | nil => intro c x n h; simp [varintLoop] at h
  | cons v l ih =>
    intro c x n h
    rw [varintLoop] at h ⊢
    rw [countVarintLoop]
    by_cases hv : v.val &&& 0x80 = 0
    · simp only [if_pos hv]
      ring
    · rw [if_neg hv] at h ⊢
      rw [if_neg hv, ih (c + 1) _ (n + 1) h]
      push_cast
      ring

/-- A list with a terminating byte splits at the first one. -/
theorem exists_first_terminator (l : List Byte) (h : ¬ ∀ b ∈ l, b.val &&& 0x80 ≠ 0) :
    ∃ pre b post, l = pre ++ b :: post ∧ (∀ x ∈ pre, x.val &&& 0x80 ≠ 0) ∧
      b.val &&& 0x80 = 0 := by
  induction l with
  | nil => exact absurd (fun b hb => absurd hb (List.not_mem_nil b)) h
  | cons v l ih =>
    by_cases hv : v.val &&& 0x80 = 0
    · exact ⟨[], v, l, rfl, fun x hx => absurd hx (List.not_mem_nil x), hv⟩
    · have hl : ¬ ∀ b ∈ l, b.val &&& 0x80 ≠ 0 := by
        intro hall
        apply h
        intro b hb
        rcases List.mem_cons.1 hb with rfl | hb
        · exact hv
        · exact hall b hb
      obtain ⟨pre, b, post, he, hpre, hb⟩ := ih hl
      refine ⟨v :: pre, b, post, by rw [he]; rfl, ?_, hb⟩
      intro x hx
      rcases List.mem_cons.1 hx with rfl | hx
      · exact hv
      · exact hpre x hx

/-! ## Little-endian words -/

theorem lor_shiftLeft_eq_add (a b s : Nat) (ha : a < 2 ^ s) : a ||| b <<< s = a + b * 2 ^ s := by
  rw [Nat.shiftLeft_eq, Nat.lor_comm, Nat.mul_comm, ← Nat.mul_add_lt_is_or ha, Nat.add_comm]

theorem leUint32_eq (b0 b1 b2 b3 : Byte) (l sp : List Byte) :
    leUint32 ⟨b0 :: b1 :: b2 :: b3 :: l, sp⟩
      = some (b0.val + 2 ^ 8 * b1.val + 2 ^ 16 * b2.val + 2 ^ 24 * b3.val) := by
  have h0 := b0.isLt
  have h1 := b1.isLt
  have h2 := b2.isLt
  simp only [leUint32]
  rw [lor_shiftLeft_eq_add _ _ 8 (by omega), lor_shiftLeft_eq_add _ _ 16 (by omega),
    lor_shiftLeft_eq_add _ _ 24 (by omega)]
  congr 1
  ring

theorem leUint64_eq (b0 b1 b2 b3 b4 b5 b6 b7 : Byte) (l sp : List Byte) :
    leUint64 ⟨b0 :: b1 :: b2 :: b3 :: b4 :: b5 :: b6 :: b7 :: l, sp⟩
      = some (b0.val + 2 ^ 8 * b1.val + 2 ^ 16 * b2.val + 2 ^ 24 * b3.val +
          2 ^ 32 * b4.val + 2 ^ 40 * b5.val + 2 ^ 48 * b6.val + 2 ^ 56 * b7.val) := by
  have h0 := b0.isLt
  have h1 := b1.isLt
  have h2 := b2.isLt
  have h3 := b3.isLt
  have h4 := b4.isLt
  have h5 := b5.isLt
  have h6 := b6.isLt
  simp only [leUint64]
  rw [lor_shiftLeft_eq_add _ _ 8 (by omega), lor_shiftLeft_eq_add _ _ 16 (by omega),
    lor_shiftLeft_eq_add _ _ 24 (by omega), lor_shiftLeft_eq_add _ _ 32 (by omega),
    lor_shiftLeft_eq_add _ _ 40 (by omega), lor_shiftLeft_eq_add _ _ 48 (by omega),
    lor_shiftLeft_eq_add _ _ 56 (by omega)]
  congr 1
  ring

/-- The signed reading of a bit pattern that fits the width. -/
theorem toI_of_lt_width (w n : Nat) (h : n < 2 ^ w) :
    toI w n = if n < 2 ^ (w - 1) then (n : Int) else (n : Int) - 2 ^ w := by
  unfold toI
  rw [Nat.mod_eq_of_lt h]

/-! ## The shape of a returned field -/

theorem slice_some_length (s d : Slice) (lo hi : Int) (h : s.slice lo hi = some d) :
    (d.data.length : Int) = hi - lo := by
  have hb := slice_some_bounds s d lo hi h
  unfold Slice.slice at h
  rw [if_pos hb] at h
  simp only [Option.some.injEq] at h
  subst h
  simp only [Slice.cap] at hb
  simp only [List.length_take, List.length_drop, List.length_append]
  omega

/-- The sum `n + int(l)` of the LENGTH_DELIMITED branch did not wrap if the slice
expression that uses it was in range. -/
theorem addInt_of_slice_some (s d : Slice) (n1 lv : Int) (hn : 1 ≤ n1)
    (hr : -2 ^ 63 ≤ lv ∧ lv < 2 ^ 63) (h : s.slice n1 (addInt n1 lv) = some d) :
    addInt n1 lv = n1 + lv := by
  have hb := slice_some_bounds s d _ _ h
  obtain ⟨k, hk⟩ := wrap64_spec (n1 + lv)
  have hrange := toI64_range (toU 64 (n1 + lv))
  have ha : addInt n1 lv = n1 + lv + k * 2 ^ 64 := hk
  have hrange1 : -2 ^ 63 ≤ addInt n1 lv ∧ addInt n1 lv < 2 ^ 63 := hrange
  rw [ha] at hrange1 hb ⊢
  omega

/-- What a field returned without error from a non-empty buffer looks like: its tag
comes from the first byte, its payload is the slice `src[n - Length : n]`, and the count
`n` follows from the wire type. -/
theorem ReadField_shape (b : Byte) (l sp : List Byte) (f0 f : Field) (n : Int)
    (h : ReadField ⟨b :: l, sp⟩ f0 = .ret (n, none, f)) :
    f.FieldNum = ((b.val / 8 : Nat) : Int) ∧ f.WireType = ((b.val % 8 : Nat) : Int) ∧
    (b.val % 8 = 0 ∨ b.val % 8 = 1 ∨ b.val % 8 = 2 ∨ b.val % 8 = 5) ∧
    Slice.slice ⟨b :: l, sp⟩ (n - f.Length) n = some f.data ∧
    (b.val % 8 = 0 → n = 1 + f.Length ∧ f.Length = countVarintLoop l 0) ∧
    (b.val % 8 = 1 → n = 1 + f.Length ∧ f.Length = 8) ∧
    (b.val % 8 = 5 → n = 1 + f.Length ∧ f.Length = 4) ∧
    (b.val % 8 = 2 → n = 1 + (varintLoop l 0 0).2 + f.Length ∧
      f.Length = (varintLoop l 0 0).1) := by
  have ht := ReadField_tag b l sp f0 f n none h
  refine ⟨ht.1, ht.2, ?_⟩
  by_cases h0 : b.val % 8 = 0
  · rw [ReadField_varint _ _ _ _ h0] at h
    split at h
    · simp at h
    · split at h
      · simp at h
      · rename_i d hd
        simp only [Exec.ret.injEq, Prod.mk.injEq, true_and] at h
        obtain ⟨hn, hf⟩ := h
        subst hf
        subst hn
        refine ⟨Or.inl h0, ?_, fun _ => ⟨rfl, rfl⟩, fun h1 => ?_, fun h5 => ?_, fun h2 => ?_⟩
        · simp only [add_sub_cancel_right]
          exact hd
        · omega
        · omega
        · omega
  by_cases h1 : b.val % 8 = 1
  · rw [ReadField_64bit _ _ _ _ h1] at h
    split at h
    · simp at h
    · rename_i d hd
      simp only [Exec.ret.injEq, Prod.mk.injEq, true_and] at h
      obtain ⟨hn, hf⟩ := h
      subst hf
      subst hn
      refine ⟨Or.inr (Or.inl h1), ?_, fun h0 => ?_, fun _ => ⟨rfl, rfl⟩, fun h5 => ?_,
        fun h2 => ?_⟩
      · simp only [add_sub_cancel_right]
        exact hd
      · omega
      · omega
      · omega
  by_cases h2 : b.val % 8 = 2
  · rw [ReadField_lengthDelimited _ _ _ _ h2] at h
    split at h
    · simp at h
    · rename_i d hd
      have hc := (varintLoop_count_bounds l 0 0).1
      have ha := addInt_of_slice_some _ _ _ _ (by omega) (varintLoop_value_range l 0 0) hd
      simp only [Exec.ret.injEq, Prod.mk.injEq, true_and] at h
      obtain ⟨hn, hf⟩ := h
      subst hf
      subst hn
      refine ⟨Or.inr (Or.inr (Or.inl h2)), ?_, fun h0 => ?_, fun h1 => ?_, fun h5 => ?_,
        fun _ => ⟨ha, rfl⟩⟩
      · have e : addInt (1 + (varintLoop l 0 0).2) (varintLoop l 0 0).1 - (varintLoop l 0 0).1
            = 1 + (varintLoop l 0 0).2 := by rw [ha]; ring
        simp only [e]
        exact hd
      · omega
      · omega
      · omega
  by_cases h5 : b.val % 8 = 5
  · rw [ReadField_32bit _ _ _ _ h5] at h
    split at h
    · simp at h
    · rename_i d hd
      simp only [Exec.ret.injEq, Prod.mk.injEq, true_and] at h
      obtain ⟨hn, hf⟩ := h
      subst hf
      subst hn
      refine ⟨Or.inr (Or.inr (Or.inr h5)), ?_, fun h0 => ?_, fun h1 => ?_, fun _ => ⟨rfl, rfl⟩,
        fun h2 => ?_⟩
      · simp only [add_sub_cancel_right]
        exact hd
      · omega
      · omega
      · omega
  rw [ReadField_unknown _ _ _ _ ⟨h0, h1, h2, h5⟩] at h
  simp at h

theorem leUint32_some (s : Slice) (h : s.data.length = 4) : ∃ v, leUint32 s = some v := by
  obtain ⟨d, sp⟩ := s
  match d, h with
  | [b0, b1, b2, b3], _ => exact ⟨_, rfl⟩

theorem leUint64_some (s : Slice) (h : s.data.length = 8) : ∃ v, leUint64 s = some v := by
  obtain ⟨d, sp⟩ := s
  match d, h with
  | [b0, b1, b2, b3, b4, b5, b6, b7], _ => exact ⟨_, rfl⟩

/-! ## Termination of the loop of `AsEmbedded` -/

/-- A step of the loop that goes on starts below `len(data)` and advances by at least
one. -/
theorem embeddedLoop_progress (data s : Slice) (idx n : Int) (fd : Field) (hn : n ≠ 0)
    (hs : data.sliceFrom idx = some s) (hr : ReadField s Field.zero = .ret (n, none, fd)) :
    idx < data.len ∧ 1 ≤ n ∧ ∃ b l sp, s = ⟨b :: l, sp⟩ := by
  have hb := sliceFrom_some data s idx hs
  obtain ⟨d, sp⟩ := s
  cases d with
  | nil =>
    rw [ReadField_nil] at hr
    simp only [Exec.ret.injEq, Prod.mk.injEq] at hr
    exact absurd hr.1.symm hn
  | cons b l =>
    exact ⟨hb.2.2.2 (by simp), ReadField_count_pos b l sp _ _ _ hr, b, l, sp, rfl⟩

/-- Once the loop has more iterations left than bytes, their number does not matter. -/
theorem embeddedLoop_fuel (data : Slice) : ∀ (fuel fuel2 : Nat) (idx : Int) (lst : List Field),
    1 ≤ fuel → data.len - idx < fuel → 1 ≤ fuel2 → data.len - idx < fuel2 →
    embeddedLoop data fuel idx lst = embeddedLoop data fuel2 idx lst := by
  intro fuel
  induction fuel with
  | zero => intro fuel2 idx lst h1; omega
  | succ fuel ih =>
    intro fuel2 idx lst _ hf1 h2 hf2
    cases fuel2 with
    | zero => omega
    | succ fuel2 =>
      cases hs : data.sliceFrom idx with
      | none =>
        rw [embeddedLoop_out_of_range data fuel idx lst hs,
          embeddedLoop_out_of_range data fuel2 idx lst hs]
      | some s =>
        cases hr : ReadField s Field.zero with
        | panic =>
          rw [embeddedLoop_panic data s fuel idx lst hs hr,
            embeddedLoop_panic data s fuel2 idx lst hs hr]
        | timeout => exact absurd hr (ReadField_ne_timeout s _)
        | ret r =>
          obtain ⟨n, e, fd⟩ := r
          cases e with
          | some err =>
            rw [embeddedLoop_error data s fuel idx lst n err fd hs hr,
              embeddedLoop_error data s fuel2 idx lst n err fd hs hr]
          | none =>
            by_cases hn : n = 0
            · subst hn
              rw [embeddedLoop_done data s fuel idx lst fd hs hr,
                embeddedLoop_done data s fuel2 idx lst fd hs hr]
            · obtain ⟨hlt, hpos, -⟩ := embeddedLoop_progress data s idx n fd hn hs hr
              rw [embeddedLoop_step data s fuel idx lst n fd hn hs hr,
                embeddedLoop_step data s fuel2 idx lst n fd hn hs hr]
              exact ih fuel2 (idx + n) (lst ++ [fd]) (by omega) (by omega) (by omega) (by omega)

theorem Framed_length_le (p : Slice) : ∀ (fs : List Field) (o : Int) (os : List Int),
    Framed p (o :: os) fs → o + (fs.length : Int) ≤ p.len := by
  intro fs
  induction fs with
  | nil =>
    intro o os h
    cases os with
    | nil =>
      simp only [Framed] at h
      simp [h]
    | cons o1 os => simp [Framed] at h
  | cons fd fs ih =>
    intro o os h
    cases os with
    | nil => simp [Framed] at h
    | cons o1 os =>
      simp only [Framed] at h
      have := ih o1 os h.2.2
      simp only [List.length_cons]
      push_cast
      omega

/-- Every framed field is what one call of `ReadField` returns on the payload sliced
from some offset, and its own payload is a slice expression on those bytes. -/
theorem Framed_mem (p : Slice) : ∀ (fs : List Field) (o : Int) (os : List Int),
    Framed p (o :: os) fs → ∀ fd ∈ fs, ∃ (o1 : Int) (s : Slice) (n : Int),
      p.sliceFrom o1 = some s ∧ ReadField s Field.zero = .ret (n, none, fd) ∧
      s.slice (n - fd.Length) n = some fd.data := by
  intro fs
  induction fs with
  | nil => intro o os _ fd hfd; exact absurd hfd (List.not_mem_nil fd)
  | cons g fs ih =>
    intro o os h fd hfd
    cases os with
    | nil => simp [Framed] at h
    | cons o1 os =>
      simp only [Framed] at h
      obtain ⟨hlt, ⟨s, hs, hr⟩, hrest⟩ := h
      rcases List.mem_cons.1 hfd with rfl | hmem
      · obtain ⟨-, -, b, l, sp, rfl⟩ :=
          embeddedLoop_progress p s o (o1 - o) fd (by omega) hs hr
        exact ⟨o, _, o1 - o, hs, hr, (ReadField_shape b l sp _ _ _ hr).2.2.2.1⟩
      · exact ih o1 os hrest fd hmem

/-! ## `varint` beyond 64 bits -/

theorem or_mod_two_pow (a b n : Nat) : (a ||| b) % 2 ^ n = a % 2 ^ n ||| b % 2 ^ n := by
  apply Nat.eq_of_testBit_eq
  intro i
  simp only [Nat.testBit_mod_two_pow, Nat.testBit_or]
  by_cases h : i < n <;> simp [h]

theorem toI64_mod (n : Nat) : toI 64 (n % 2 ^ 64) = toI 64 n := by
  unfold toI
  rw [Nat.mod_mod]

theorem toU64_toI64 (n : Nat) : toU 64 (toI 64 n) = n % 2 ^ 64 := by
  have h : n % 2 ^ 64 < 2 ^ 64 := Nat.mod_lt _ (by decide)
  unfold toU toI
  split
  · have e : ((n % 2 ^ 64 : Nat) : Int) % 2 ^ 64 = ((n % 2 ^ 64 : Nat) : Int) := by omega
    rw [e, Int.toNat_natCast]
  · have e : (((n % 2 ^ 64 : Nat) : Int) - 2 ^ 64) % 2 ^ 64 = ((n % 2 ^ 64 : Nat) : Int) := by
      omega
    rw [e, Int.toNat_natCast]

/-- One step of the accumulator of `varint`, on bit patterns of any size: or-ing the
shifted group keeps the low 64 bits of the sum. -/
theorem orW_shlW_wrap (X g s : Nat) (hX : X < 2 ^ s) (hg : g < 2 ^ 64) :
    orW 64 (toI 64 X) (shlW 64 (g : Int) s) = toI 64 (X + g * 2 ^ s) := by
  have h1 : toU 64 (shlW 64 (g : Int) s) = (g * 2 ^ s) % 2 ^ 64 := by
    unfold shlW
    rw [toU64_toI64, toU64_natCast g hg, Nat.shiftLeft_eq]
  have h2 : X ||| g * 2 ^ s = X + g * 2 ^ s := by
    rw [Nat.lor_comm, Nat.mul_comm, ← Nat.mul_add_lt_is_or hX, Nat.add_comm]
  unfold orW
  rw [toU64_toI64, h1, ← or_mod_two_pow, h2, toI64_mod]

theorem varintLoop_groupSum (b : Byte) (post : List Byte) (hb : b.val &&& 0x80 = 0) :
    ∀ (pre : List Byte), (∀ x ∈ pre, x.val &&& 0x80 ≠ 0) → ∀ (c X : Nat), X < 2 ^ (c * 7) →
    varintLoop (pre ++ b :: post) c (toI 64 X)
      = (toI 64 (X + 2 ^ (c * 7) * groupSum (pre ++ [b])), (c : Int) + (pre.length : Int) + 1) := by
  intro pre
  induction pre with
  | nil =>
    intro _ c X hX
    have hlt : b.val < 128 := (hiBit_eq_zero_iff b).1 hb
    have hg : groupSum [b] = b.val := by
      simp only [groupSum]
      rw [loBits_eq]
      omega
    rw [List.nil_append, List.nil_append, varintLoop, if_pos hb,
      orW_shlW_wrap X b.val (c * 7) hX (by omega), hg, Nat.mul_comm]
    simp
  | cons v pre ih =>
    intro hpre c X hX
    have hv := hpre v (List.mem_cons_self v pre)
    have hg : v.val &&& 0x7F < 128 := by
      rw [loBits_eq]
      exact Nat.mod_lt _ (by decide)
    have hp : 2 ^ ((c + 1) * 7) = 128 * 2 ^ (c * 7) := by
      rw [Nat.add_mul, Nat.pow_add, Nat.mul_comm]
    have hpos : 0 < 2 ^ (c * 7) := Nat.two_pow_pos _
    have hX1 : X + (v.val &&& 0x7F) * 2 ^ (c * 7) < 2 ^ ((c + 1) * 7) := by
      rw [hp]
      nlinarith
    have hsum : X + (v.val &&& 0x7F) * 2 ^ (c * 7)
          + 2 ^ ((c + 1) * 7) * groupSum (pre ++ [b])
        = X + 2 ^ (c * 7) * groupSum (v :: pre ++ [b]) := by
      rw [hp, List.cons_append, groupSum]
      ring
    rw [List.cons_append, varintLoop, if_neg hv,
      orW_shlW_wrap X (v.val &&& 0x7F) (c * 7) hX (by omega),
      ih (fun y hy => hpre y (List.mem_cons_of_mem v hy)) (c + 1) _ hX1, hsum]
    simp only [List.length_cons]
    push_cast
    congr 1
    ring

theorem groupSum_take_drop (k : Nat) : ∀ l : List Byte,
    groupSum l = groupSum (l.take k) + 2 ^ (7 * k) * groupSum (l.drop k) := by
  induction k with
  | zero => intro l; simp [groupSum]
  | succ k ih =>
    intro l
    cases l with
    | nil => simp [groupSum]
    | cons b l =>
      have hp : 2 ^ (7 * (k + 1)) = 2 ^ 7 * 2 ^ (7 * k) := by
        rw [Nat.mul_add, Nat.pow_add, Nat.mul_comm]
      simp only [List.take_succ_cons, List.drop_succ_cons, groupSum]
      rw [ih l, hp]
      ring

theorem toI64_add_mul (a m : Nat) : toI 64 (a + 2 ^ 70 * m) = toI 64 a := by
  rw [← toI64_mod (a + 2 ^ 70 * m), ← toI64_mod a]
  congr 1
  omega

/-- The encoder writes continuation bytes, then one terminating byte, and the groups
spell the number. -/
theorem encodeVarint_shape (v : Nat) :
    ∃ (pre : List Byte) (b : Byte), encodeVarint v = pre ++ [b] ∧
      (∀ x ∈ pre, x.val &&& 0x80 ≠ 0) ∧ b.val &&& 0x80 = 0 ∧ groupSum (pre ++ [b]) = v := by
  induction v using Nat.strong_induction_on with
  | _ v ih =>
    by_cases h : v < 128
    · have hv : (byte v).val = v := byte_val v (by omega)
      refine ⟨[], byte v, by rw [encodeVarint_lt v h]; rfl,
        fun x hx => absurd hx (List.not_mem_nil x), ?_, ?_⟩
      · rw [hiBit_eq_zero_iff, hv]; exact h
      · simp only [List.nil_append, groupSum]
        rw [loBits_eq, hv]
        omega
    · obtain ⟨pre, b, he, hpre, hb, hg⟩ := ih (v / 128) (by omega)
      have hv : (byte (v % 128 + 128)).val = v % 128 + 128 := byte_val _ (by omega)
      refine ⟨byte (v % 128 + 128) :: pre, b, by rw [encodeVarint_ge v h, he]; rfl, ?_, hb, ?_⟩
      · intro x hx
        rcases List.mem_cons.1 hx with rfl | hx
        · rw [Ne, hiBit_eq_zero_iff, hv]; omega
        · exact hpre x hx
      · rw [List.cons_append, groupSum, hg, loBits_eq, hv]
        omega

theorem encodeVarint_length (k : Nat) : ∀ v : Nat, v < 2 ^ (7 * (k + 1)) →
    (k = 0 ∨ 2 ^ (7 * k) ≤ v) → (encodeVarint v).length = k + 1 := by
  induction k with
  | zero =>
    intro v hv _
    rw [encodeVarint_lt v (by simpa using hv)]
    rfl
  | succ k ih =>
    intro v hv hlow
    have hp1 : 2 ^ (7 * (k + 1)) = 128 * 2 ^ (7 * k) := by
      rw [Nat.mul_add, Nat.pow_add, Nat.mul_comm]
    have hp2 : 2 ^ (7 * (k + 1 + 1)) = 128 * 2 ^ (7 * (k + 1)) := by
      rw [Nat.mul_add 7 (k + 1) 1, Nat.pow_add, Nat.mul_comm]
    have hpos : 0 < 2 ^ (7 * k) := Nat.two_pow_pos _
    have hge : 2 ^ (7 * (k + 1)) ≤ v := by
      rcases hlow with h | h
      · omega
      · exact h
    have h128 : ¬ v < 128 := by
      rw [hp1] at hge
      omega
    rw [encodeVarint_ge v h128, List.length_cons, ih (v / 128)]
    · rw [hp2] at hv
      omega
    · by_cases hk : k = 0
      · exact Or.inl hk
      · right
        rw [hp1] at hge
        omega

theorem toI64_toU64 (x : Int) (h : -2 ^ 63 ≤ x ∧ x < 2 ^ 63) : toI 64 (toU 64 x) = x := by
  unfold toI toU
  simp only [Nat.reduceSub]
  split <;> omega

theorem toU64_neg_bounds (x : Int) (h : -2 ^ 63 ≤ x ∧ x < 0) :
    2 ^ 63 ≤ toU 64 x ∧ toU 64 x < 2 ^ 64 := by
  unfold toU
  omega

/-! ## Zig-zag in closed form -/

theorem xor_all_ones (m : Nat) (h : m < 2 ^ 64) : (2 ^ 64 - 1) ^^^ m = 2 ^ 64 - 1 - m := by
  have e : 2 ^ 64 - 1 - m = 2 ^ 64 - (m + 1) := by omega
  rw [e]
  apply Nat.eq_of_testBit_eq
  intro i
  rw [Nat.testBit_xor, Nat.testBit_two_pow_sub_one, Nat.testBit_two_pow_sub_succ h]
  by_cases hi : i < 64
  · simp [hi]
  · have hm : m.testBit i = false :=
      Nat.testBit_lt_two_pow (Nat.lt_of_lt_of_le h (Nat.pow_le_pow_right (by decide) (by omega)))
    simp [hi, hm]

theorem xor_sign_bit (a : Nat) (h : a < 2 ^ 63) : a ^^^ 2 ^ 63 = a + 2 ^ 63 := by
  apply Nat.eq_of_testBit_eq
  intro i
  rw [Nat.testBit_xor, Nat.testBit_two_pow, Nat.add_comm a]
  rcases Nat.lt_trichotomy i 63 with hi | hi | hi
  · rw [Nat.testBit_two_pow_add_gt hi]
    have : ¬ (63 = i) := by omega
    simp [this]
  · subst hi
    rw [Nat.testBit_two_pow_add_eq, Nat.testBit_lt_two_pow h]
    simp
  · have h1 : a.testBit i = false :=
      Nat.testBit_lt_two_pow (Nat.lt_of_lt_of_le h (Nat.pow_le_pow_right (by decide) (by omega)))
    have h2 : (2 ^ 63 + a).testBit i = false :=
      Nat.testBit_lt_two_pow (Nat.lt_of_lt_of_le (show 2 ^ 63 + a < 2 ^ 64 by omega)
        (Nat.pow_le_pow_right (by decide) (by omega)))
    have : ¬ (63 = i) := by omega
    rw [h1, h2]
    simp [this]

theorem xor_sign_bit_ge (a : Nat) (h1 : 2 ^ 63 ≤ a) (h2 : a < 2 ^ 64) :
    a ^^^ 2 ^ 63 = a - 2 ^ 63 := by
  have e := xor_sign_bit (a - 2 ^ 63) (by omega)
  have ha : a = (a - 2 ^ 63) + 2 ^ 63 := by omega
  rw [ha, ← e, Nat.xor_assoc, Nat.xor_self, Nat.xor_zero, e]
  omega

theorem sarW_eq_div (x : Int) (s : Nat) : sarW x s = x / ((2 ^ s : Nat) : Int) := by
  unfold sarW
  exact Int.shiftRight_eq_div_pow x s

/-- Function `zze64` in closed form, by the range of its argument. -/
theorem zze64_eq (x : Int) (h : -2 ^ 63 ≤ x ∧ x < 2 ^ 63) :
    zze64 x =
      if 0 ≤ x then (if x < 2 ^ 62 then 2 * x else 2 * x - 2 ^ 64)
      else (if -2 ^ 62 ≤ x then -2 * x - 1 else -2 * x - 2 ^ 64 - 1) := by
  have hsh : toU 64 (shlW 64 x 1) = (toU 64 x * 2) % 2 ^ 64 := by
    unfold shlW
    rw [toU64_toI64, Nat.shiftLeft_eq]
  have hlt : (toU 64 x * 2) % 2 ^ 64 < 2 ^ 64 := Nat.mod_lt _ (by decide)
  unfold zze64 xorW
  rw [sarW_eq_div, hsh]
  by_cases h0 : 0 ≤ x
  · have hd : x / ((2 ^ 63 : Nat) : Int) = 0 := by
      have : ((2 ^ 63 : Nat) : Int) = 2 ^ 63 := by norm_num
      rw [this]
      omega
    have hz : toU 64 0 = 0 := by decide
    rw [hd, hz, Nat.zero_xor, if_pos h0]
    unfold toI toU
    simp only [Nat.reduceSub]
    split <;> split <;> omega
  · have hd : x / ((2 ^ 63 : Nat) : Int) = -1 := by
      have : ((2 ^ 63 : Nat) : Int) = 2 ^ 63 := by norm_num
      rw [this]
      omega
    have hz : toU 64 (-1) = 2 ^ 64 - 1 := by decide
    rw [hd, hz, xor_all_ones _ hlt, if_neg h0]
    unfold toI toU
    simp only [Nat.reduceSub]
    split <;> split <;> omega

/-- Function `zzd64` in closed form, by the parity of its argument. -/
theorem zzd64_eq (u : Int) (h : -2 ^ 63 ≤ u ∧ u < 2 ^ 63) :
    zzd64 u = if u % 2 = 0 then u / 2 else -(u / 2) - 1 := by
  have h1 : toU 64 1 = 1 := by decide
  have hand : andW 64 u 1 = ((toU 64 u % 2 : Nat) : Int) := by
    unfold andW
    rw [h1, Nat.and_one_is_mod, toI64_of_lt _ (by omega)]
  have hpar : ((toU 64 u % 2 : Nat) : Int) = u % 2 := by
    unfold toU
    omega
  have hu2 : toU 64 (u / 2) < 2 ^ 64 := by
    unfold toU
    omega
  have hsar : sarW u 1 = u / 2 := by
    rw [sarW_eq_div]
    norm_num
  unfold zzd64 xorW
  rw [hand, hpar, hsar]
  by_cases hp : u % 2 = 0
  · have hn : negW 64 0 = 0 := by decide
    have hz : toU 64 0 = 0 := by decide
    rw [hp, hn, hz, Nat.xor_zero, if_pos rfl, toI64_toU64 _ (by omega)]
  · have hp1 : u % 2 = 1 := by omega
    have hn : negW 64 1 = -1 := by decide
    have hz : toU 64 (-1) = 2 ^ 64 - 1 := by decide
    rw [hp1, hn, hz, Nat.xor_comm, xor_all_ones _ hu2, if_neg (by decide)]
    unfold toI toU
    simp only [Nat.reduceSub]
    split <;> omega

/-! ## Claims -/

/-- C1: for a field number `k` in `1..15`, a non-negative `int64` value `v` and any
trailing bytes (and any spare capacity), `ReadField` on `[8*k] ++ enc(v) ++ rest` returns
without error the count `1 + len(enc(v))` and a field with `FieldNum = k`,
`WireType = 0`, `Length = len(enc(v))` and payload `enc(v)`, on which `AsInt64` returns
`v` without error. -/
theorem readField_varint_field (k v : Nat) (hk : 1 ≤ k ∧ k ≤ 15) (hv : v < 2 ^ 63)
    (rest spare : List Byte) (f0 : Field) :
    ∃ f : Field,
      ReadField ⟨byte (8 * k) :: (encodeVarint v ++ rest), spare⟩ f0
        = .ret (1 + ((encodeVarint v).length : Int), none, f) ∧
      f.FieldNum = k ∧ f.WireType = _varint ∧ f.Length = ((encodeVarint v).length : Int) ∧
      f.data.data = encodeVarint v ∧ AsInt64 f = .ret ((v : Int), none) := by
  have hb : (byte (8 * k)).val = 8 * k := byte_val _ (by omega)
  have hw : (byte (8 * k)).val % 8 = 0 := by rw [hb]; omega
  have hf : (byte (8 * k)).val / 8 = k := by rw [hb]; omega
  have hc : countVarintLoop (encodeVarint v ++ rest) 0 = ((encodeVarint v).length : Int) := by
    rw [countVarintLoop_encode]; simp
  have hpos : 0 < (encodeVarint v).length := List.length_pos.2 (encodeVarint_ne_nil v)
  have hs := slice_cons (byte (8 * k)) (encodeVarint v ++ rest) spare 0
    (encodeVarint v).length (by simp; omega)
  simp only [Nat.cast_zero, add_zero, List.drop_zero, List.append_assoc, zero_add,
    List.take_left, List.drop_left] at hs
  refine ⟨⟨k, 0, ((encodeVarint v).length : Int), ⟨encodeVarint v, rest ++ spare⟩⟩, ?_,
    rfl, rfl, rfl, rfl, ?_⟩
  · rw [ReadField_varint _ _ _ _ hw, hc, if_neg (by omega), hs, hf]
  · have hr := varintLoop_encode v 0 0 [] (by simp) (by simpa using hv)
    simp only [List.append_nil, Nat.cast_zero, zero_mul, pow_zero, mul_one, zero_add] at hr
    simp [AsInt64, _varint, varint, hr]

/-- C1, at the buffer `[0x08, 0x96, 0x01]`: field 1, VARINT, 150. -/
theorem readField_varint_field_witness :
    (1 ≤ 1 ∧ 1 ≤ 15) ∧ 150 < 2 ^ 63 ∧
    ∃ f : Field,
      ReadField ⟨[0x08, 0x96, 0x01], []⟩ Field.zero = .ret (3, none, f) ∧
      f.FieldNum = 1 ∧ f.WireType = _varint ∧ f.Length = 2 ∧
      f.data.data = [0x96, 0x01] ∧ AsInt64 f = .ret (150, none) := by
  refine ⟨by decide, by decide, ?_⟩
  have h := readField_varint_field 1 150 (by decide) (by decide) [] [] Field.zero
  have e : encodeVarint 150 = [0x96, 0x01] := by simp [encodeVarint, byte]
  simpa [e, byte] using h

/-- C2: varint round trip.  For a non-negative `int64` value `v` and any following bytes,
`varint` on `enc(v) ++ rest` returns `v` and the length of `enc(v)`. -/
theorem varint_encode_roundtrip (v : Nat) (hv : v < 2 ^ 63) (rest spare : List Byte) :
    varint ⟨encodeVarint v ++ rest, spare⟩ = ((v : Int), ((encodeVarint v).length : Int)) := by
  have h := varintLoop_encode v 0 0 rest (by simp) (by simpa using hv)
  simpa [varint] using h

/-- C2, at `v = 300` followed by one more byte. -/
theorem varint_encode_roundtrip_witness :
    300 < 2 ^ 63 ∧ varint ⟨[0xAC, 0x02, 0x7F], []⟩ = (300, 2) := by
  refine ⟨by decide, ?_⟩
  have h := varint_encode_roundtrip 300 (by decide) [0x7F] []
  have e : encodeVarint 300 = [0xAC, 0x02] := by simp [encodeVarint, byte]
  simpa [e] using h

/-- C3: the zig-zag round trip fails on the code.  `zzd64` and `zzd32` shift a signed
value right, which copies the sign bit, so `zzd64 (zze64 x)` is not `x` at `x = 2 ^ 62`
(nor at the minimum `int64`), and `zzd32 (zze32 x)` is not `x` at `x = 2 ^ 30`; a small
value such as `-5` does come back. -/
theorem zigzag_roundtrip_breaks :
    zze64 (2 ^ 62) = -2 ^ 63 ∧ zzd64 (zze64 (2 ^ 62)) = -2 ^ 62 ∧
    zzd64 (zze64 (-2 ^ 63)) = 0 ∧
    zze32 (2 ^ 30) = -2 ^ 31 ∧ zzd32 (zze32 (2 ^ 30)) = -2 ^ 30 ∧
    zzd64 (zze64 (-5)) = -5 := by
  decide

/-- C4, as stated, fails at field number 32: the tag value `32 * 8 + 0` is encoded as
`[0x80, 0x02]`, and on `[0x80, 0x02, 0x05]` (that tag followed by the varint 5)
`ReadField` reports field number 16 and takes the second tag byte as the payload. -/
theorem tag_roundtrip_breaks_at_32 :
    encodeVarint (32 * 8 + 0) = [0x80, 0x02] ∧ WellFormedPayload 0 [0x05] ∧
    ReadField ⟨encodeVarint (32 * 8 + 0) ++ [0x05] ++ [], []⟩ Field.zero
      = .ret (2, none, ⟨16, 0, 1, ⟨[0x02], [0x05]⟩⟩) ∧
    ¬ ∃ c f, ReadField ⟨encodeVarint (32 * 8 + 0) ++ [0x05] ++ [], []⟩ Field.zero
        = .ret (c, none, f) ∧ f.FieldNum = 32 ∧ f.WireType = 0 := by
  have e : encodeVarint (32 * 8 + 0) = [0x80, 0x02] := by simp [encodeVarint, byte]
  have e5 : encodeVarint 5 = [0x05] := by simp [encodeVarint, byte]
  have hr : ReadField ⟨[0x80, 0x02] ++ [0x05] ++ [], []⟩ Field.zero
      = .ret (2, none, ⟨16, 0, 1, ⟨[0x02], [0x05]⟩⟩) := by decide
  refine ⟨e, Or.inl ⟨rfl, 5, e5.symm⟩, ?_, ?_⟩
  · rw [e]; exact hr
  · rw [e, hr]
    rintro ⟨c, f, h, hn, -⟩
    simp only [Exec.ret.injEq, Prod.mk.injEq] at h
    rw [← h.2.2] at hn
    exact absurd hn (by decide)

/-- C4, amended: the tag round trip holds for the field numbers `1..31` and no further.
With a wire type `w` in `{0,1,2,5}`, a well-formed payload for `w` and a buffer
`enc(n*8 + w) ++ payload ++ rest` (of a length a Go slice can have), `ReadField` returns
a field with `FieldNum = n` and `WireType = w` when `1 <= n <= 31`; when `32 <= n`
every field it returns has `FieldNum = 16 + n mod 16`, which is not `n`.  `ReadField`
reads one tag byte only: for `16 <= n <= 31` the continuation bit of that byte stands
where bit 4 of the field number is expected. -/
theorem tag_roundtrip_up_to_31 (n w : Nat) (p rest spare : List Byte) (f0 : Field)
    (hw : w = 0 ∨ w = 1 ∨ w = 2 ∨ w = 5) (hp : WellFormedPayload w p)
    (hlen : (encodeVarint (n * 8 + w) ++ p ++ rest).length < 2 ^ 63) :
    (1 ≤ n ∧ n ≤ 31 →
      ∃ c f, ReadField ⟨encodeVarint (n * 8 + w) ++ p ++ rest, spare⟩ f0 = .ret (c, none, f) ∧
        f.FieldNum = (n : Int) ∧ f.WireType = (w : Int)) ∧
    (32 ≤ n →
      ∀ c e f, ReadField ⟨encodeVarint (n * 8 + w) ++ p ++ rest, spare⟩ f0 = .ret (c, e, f) →
        f.FieldNum = ((16 + n % 16 : Nat) : Int) ∧ f.FieldNum ≠ (n : Int)) := by
  have hw8 : w < 8 := by omega
  constructor
  · rintro ⟨hn1, hn2⟩
    by_cases hsmall : n ≤ 15
    · -- one tag byte
      have hx : n * 8 + w < 128 := by omega
      have hbv : (byte (n * 8 + w)).val = n * 8 + w := byte_val _ (by omega)
      rw [encodeVarint_lt _ hx] at hlen ⊢
      simp only [List.singleton_append, List.cons_append, List.nil_append] at hlen ⊢
      have hex : ∃ c f, ReadField ⟨byte (n * 8 + w) :: (p ++ rest), spare⟩ f0
          = .ret (c, none, f) := by
        apply ReadField_returns
        rw [hbv]
        rcases hp with ⟨h0, v, rfl⟩ | ⟨h1, hl⟩ | ⟨h2, body, rfl⟩ | ⟨h5, hl⟩
        · left
          refine ⟨by omega, ?_⟩
          simp [encodeVarint_ne_nil]
        · right; left
          refine ⟨by omega, ?_⟩
          simp only [List.length_append]; omega
        · right; right; right
          refine ⟨by omega, (encodeVarint body.length).length, body.length, ?_, ?_, ?_⟩
          · simp only [List.length_cons, List.length_append] at hlen
            have h := varintLoop_encode body.length 0 0 (body ++ rest) (by simp)
              (by simp only [Nat.zero_mul, Nat.pow_zero, Nat.mul_one, Nat.zero_add]; omega)
            simpa using h
          · simp only [List.length_append]; omega
          · simp only [List.length_cons, List.length_append] at hlen
            omega
        · right; right; left
          refine ⟨by omega, ?_⟩
          simp only [List.length_append]; omega
      obtain ⟨c, f, hr⟩ := hex
      have ht := ReadField_tag _ _ _ _ _ _ _ hr
      rw [hbv] at ht
      refine ⟨c, f, hr, ?_, ?_⟩
      · rw [ht.1]; congr 1; omega
      · rw [ht.2]; congr 1; omega
    · -- two tag bytes, the first of which is `n * 8 + w` itself
      have hx : ¬ n * 8 + w < 128 := by omega
      have hq : (n * 8 + w) / 128 = 1 := by omega
      have hm : (n * 8 + w) % 128 + 128 = n * 8 + w := by omega
      have hbv : (byte (n * 8 + w)).val = n * 8 + w := byte_val _ (by omega)
      have h1v : (byte 1).val = 1 := byte_val 1 (by omega)
      rw [encodeVarint_ge _ hx, hq, hm, encodeVarint_lt 1 (by omega)]
      simp only [List.singleton_append, List.cons_append, List.nil_append]
      have hex : ∃ c f, ReadField ⟨byte (n * 8 + w) :: byte 1 :: (p ++ rest), spare⟩ f0
          = .ret (c, none, f) := by
        apply ReadField_returns
        rw [hbv]
        rcases hp with ⟨h0, v, rfl⟩ | ⟨h1, hl⟩ | ⟨h2, body, rfl⟩ | ⟨h5, hl⟩
        · left
          exact ⟨by omega, by simp⟩
        · right; left
          refine ⟨by omega, ?_⟩
          simp only [List.length_cons, List.length_append]; omega
        · right; right; right
          refine ⟨by omega, 1, 1, ?_, ?_, by norm_num⟩
          · have hb : (byte 1).val &&& 0x80 = 0 := by rw [h1v]; decide
            rw [varintLoop, if_pos hb, h1v]
            decide
          · have := length_encodeVarint_pos body.length
            simp only [List.length_cons, List.length_append]; omega
        · right; right; left
          refine ⟨by omega, ?_⟩
          simp only [List.length_cons, List.length_append]; omega
      obtain ⟨c, f, hr⟩ := hex
      have ht := ReadField_tag _ _ _ _ _ _ _ hr
      rw [hbv] at ht
      refine ⟨c, f, hr, ?_, ?_⟩
      · rw [ht.1]; congr 1; omega
      · rw [ht.2]; congr 1; omega
  · intro hn c e f hr
    have hx : ¬ n * 8 + w < 128 := by omega
    have hbv : (byte ((n * 8 + w) % 128 + 128)).val = (n * 8 + w) % 128 + 128 :=
      byte_val _ (by omega)
    rw [encodeVarint_ge _ hx] at hr
    simp only [List.cons_append] at hr
    have ht := (ReadField_tag _ _ _ _ _ _ _ hr).1
    rw [hbv] at ht
    have hv : ((n * 8 + w) % 128 + 128) / 8 = 16 + n % 16 := by omega
    rw [hv] at ht
    refine ⟨ht, ?_⟩
    rw [ht]
    have : 16 + n % 16 ≠ n := by omega
    exact_mod_cast this

/-- C4 amended, at field 17 with a FIXED32 payload (the tag is `[0x8D, 0x01]`) and at
field 32 with the varint 5 (the tag is `[0x80, 0x02]`). -/
theorem tag_roundtrip_up_to_31_witness :
    (WellFormedPayload 5 [1, 2, 3, 4] ∧ ((1 : Nat) ≤ 17 ∧ (17 : Nat) ≤ 31) ∧
      ∃ c f, ReadField ⟨[0x8D, 0x01, 1, 2, 3, 4], []⟩ Field.zero = .ret (c, none, f) ∧
        f.FieldNum = 17 ∧ f.WireType = 5) ∧
    (WellFormedPayload 0 [0x05] ∧ (32 : Nat) ≤ 32 ∧
      ReadField ⟨[0x80, 0x02, 0x05], []⟩ Field.zero
        = .ret (2, none, ⟨16, 0, 1, ⟨[0x02], [0x05]⟩⟩) ∧
      (16 : Int) = ((16 + 32 % 16 : Nat) : Int) ∧ (16 : Int) ≠ ((32 : Nat) : Int)) := by
  have e17 : encodeVarint (17 * 8 + 5) = [0x8D, 0x01] := by simp [encodeVarint, byte]
  have e32 : encodeVarint (32 * 8 + 0) = [0x80, 0x02] := by simp [encodeVarint, byte]
  have e5 : encodeVarint 5 = [0x05] := by simp [encodeVarint, byte]
  have p5 : WellFormedPayload 5 [1, 2, 3, 4] := Or.inr (Or.inr (Or.inr ⟨rfl, rfl⟩))
  have p0 : WellFormedPayload 0 [0x05] := Or.inl ⟨rfl, 5, e5.symm⟩
  have hr : ReadField ⟨[0x80, 0x02, 0x05], []⟩ Field.zero
      = .ret (2, none, ⟨16, 0, 1, ⟨[0x02], [0x05]⟩⟩) := by decide
  have h17 := (tag_roundtrip_up_to_31 17 5 [1, 2, 3, 4] [] [] Field.zero (by decide) p5
    (by rw [e17]; decide)).1 (by decide)
  have h32 := (tag_roundtrip_up_to_31 32 0 [0x05] [] [] Field.zero (by decide) p0
    (by rw [e32]; decide)).2 (by decide) 2 none ⟨16, 0, 1, ⟨[0x02], [0x05]⟩⟩
    (by rw [e32]; exact hr)
  rw [e17] at h17
  exact ⟨⟨p5, by decide, h17⟩, p0, by decide, hr, h32⟩

/-- C5: truncation is not detected.  The buffer `[0x08, 0x96, 0x01]` decodes to one
VARINT field whose `AsInt64` is 150; with its last byte removed (whether the removed byte
stays in the capacity or not) the decode loop still returns one VARINT field and no
error, and `AsInt64` on that field returns 0 with no error. -/
theorem truncated_varint_decodes :
    AsEmbedded ⟨0, _lengthDelimited, 3, ⟨[0x08, 0x96, 0x01], []⟩⟩
      = .ret (some [⟨1, _varint, 2, ⟨[0x96, 0x01], []⟩⟩], none) ∧
    AsInt64 ⟨1, _varint, 2, ⟨[0x96, 0x01], []⟩⟩ = .ret (150, none) ∧
    AsEmbedded ⟨0, _lengthDelimited, 2, ⟨[0x08, 0x96], [0x01]⟩⟩
      = .ret (some [⟨1, _varint, 1, ⟨[0x96], [0x01]⟩⟩], none) ∧
    AsInt64 ⟨1, _varint, 1, ⟨[0x96], [0x01]⟩⟩ = .ret (0, none) ∧
    AsEmbedded ⟨0, _lengthDelimited, 2, ⟨[0x08, 0x96], []⟩⟩
      = .ret (some [⟨1, _varint, 1, ⟨[0x96], []⟩⟩], none) ∧
    AsInt64 ⟨1, _varint, 1, ⟨[0x96], []⟩⟩ = .ret (0, none) := by
  decide

/-- C6: an unterminated length is not reported.  On `[0x0A]` and on `[0x0A, 0x80, 0x80]`
(wire type 2, no terminating byte after the tag) `ReadField` returns the count 1, no
error, and a LENGTH_DELIMITED field with an empty payload. -/
theorem readField_unterminated_length :
    varint ⟨[], []⟩ = (0, 0) ∧ varint ⟨[0x80, 0x80], []⟩ = (0, 0) ∧
    ReadField ⟨[0x0A], []⟩ Field.zero
      = .ret (1, none, ⟨1, _lengthDelimited, 0, ⟨[], []⟩⟩) ∧
    ReadField ⟨[0x0A, 0x80, 0x80], []⟩ Field.zero
      = .ret (1, none, ⟨1, _lengthDelimited, 0, ⟨[], [0x80, 0x80]⟩⟩) := by
  decide

/-- C7, as stated, fails on a slice with spare capacity.  Decoding
`[0x0A, 0x04, 0x09, 1, 2, 3, 0x10, 4, 5, 6, 7, 8]` gives a LENGTH_DELIMITED field whose
payload `[0x09, 1, 2, 3]` is a slice of the buffer, so its capacity reaches the end of
the buffer.  On that payload the tag `0x09` (FIXED64) is followed by three bytes only,
yet `ReadField` returns a field: `src[1:9]` is checked against the capacity and takes
five bytes from behind the payload.  The same happens for FIXED32 and for a declared
length larger than what is left. -/
theorem short_payload_read_from_capacity :
    ReadField ⟨[0x0A, 0x04, 0x09, 1, 2, 3, 0x10, 4, 5, 6, 7, 8], []⟩ Field.zero
      = .ret (6, none, ⟨1, 2, 4, ⟨[0x09, 1, 2, 3], [0x10, 4, 5, 6, 7, 8]⟩⟩) ∧
    ReadField ⟨[0x09, 1, 2, 3], [0x10, 4, 5, 6, 7, 8]⟩ Field.zero
      = .ret (9, none, ⟨1, 1, 8, ⟨[1, 2, 3, 0x10, 4, 5, 6, 7], [8]⟩⟩) ∧
    ReadField ⟨[0x0D, 1, 2, 3], [0x10, 4, 5, 6, 7, 8]⟩ Field.zero
      = .ret (5, none, ⟨1, 5, 4, ⟨[1, 2, 3, 0x10], [4, 5, 6, 7, 8]⟩⟩) ∧
    ReadField ⟨[0x0A, 0x05, 2, 3], [0x10, 4, 5, 6, 7, 8]⟩ Field.zero
      = .ret (7, none, ⟨1, 2, 5, ⟨[2, 3, 0x10, 4, 5], [6, 7, 8]⟩⟩) := by
  decide

/-- C7, amended: the payload is measured against the capacity of the slice, which is its
length when the slice has no spare capacity.  `ReadField` panics (slice bounds out of
range) and so produces no field: for wire type 1 exactly when fewer than 8 bytes follow
the tag byte up to the capacity, for wire type 5 exactly when fewer than 4 do, and for
wire type 2 whenever the decoded length is negative or exceeds the number of bytes
that follow the length bytes up to the capacity. -/
theorem readField_short_payload_panics (b : Byte) (rest spare : List Byte) (f0 : Field) :
    (b.val &&& 7 = 1 →
      (ReadField ⟨b :: rest, spare⟩ f0 = .panic ↔ rest.length + spare.length < 8)) ∧
    (b.val &&& 7 = 5 →
      (ReadField ⟨b :: rest, spare⟩ f0 = .panic ↔ rest.length + spare.length < 4)) ∧
    (b.val &&& 7 = 2 →
      ((varint ⟨rest, spare⟩).1 < 0 ∨
        ((rest.length : Int) + (spare.length : Int)) - (varint ⟨rest, spare⟩).2
          < (varint ⟨rest, spare⟩).1) →
      ReadField ⟨b :: rest, spare⟩ f0 = .panic) := by
  have hand : b.val &&& 7 = b.val % 8 := Nat.and_pow_two_sub_one_eq_mod b.val 3
  rw [hand]
  refine ⟨fun h1 => ⟨fun hp => ?_, fun hl => ?_⟩, fun h5 => ⟨fun hp => ?_, fun hl => ?_⟩,
    fun h2 hl => ?_⟩
  · by_contra hge
    rw [ReadField_64bit_ok b rest spare f0 h1 (by omega)] at hp
    exact Exec.noConfusion hp
  · have hn : Slice.slice ⟨b :: rest, spare⟩ 1 (1 + 8) = none := by
      rw [Slice.slice, if_neg]
      simp only [Slice.cap, List.length_cons]
      push_cast
      omega
    rw [ReadField_64bit _ _ _ _ h1, hn]
  · by_contra hge
    rw [ReadField_32bit_ok b rest spare f0 h5 (by omega)] at hp
    exact Exec.noConfusion hp
  · have hn : Slice.slice ⟨b :: rest, spare⟩ 1 (1 + 4) = none := by
      rw [Slice.slice, if_neg]
      simp only [Slice.cap, List.length_cons]
      push_cast
      omega
    rw [ReadField_32bit _ _ _ _ h5, hn]
  · simp only [varint] at hl
    rw [ReadField_lengthDelimited _ _ _ _ h2,
      slice_lengthDelimited_none b rest spare _ _ (varintLoop_count_bounds rest 0 0).1
        (varintLoop_value_range rest 0 0) hl]

/-- C7 amended, at three buffers without spare capacity: a FIXED64 tag followed by three
bytes, a FIXED32 tag followed by three bytes, and a declared length of 5 followed by two
bytes. -/
theorem readField_short_payload_panics_witness :
    ((0x09 : Byte).val &&& 7 = 1 ∧ ([1, 2, 3] : List Byte).length + ([] : List Byte).length < 8 ∧
      ReadField ⟨[0x09, 1, 2, 3], []⟩ Field.zero = .panic) ∧
    ((0x0D : Byte).val &&& 7 = 5 ∧ ([1, 2, 3] : List Byte).length + ([] : List Byte).length < 4 ∧
      ReadField ⟨[0x0D, 1, 2, 3], []⟩ Field.zero = .panic) ∧
    ((0x0A : Byte).val &&& 7 = 2 ∧ varint ⟨[0x05, 1, 2], []⟩ = (5, 1) ∧
      ReadField ⟨[0x0A, 0x05, 1, 2], []⟩ Field.zero = .panic) :=
  ⟨⟨by decide, by decide,
    ((readField_short_payload_panics 0x09 [1, 2, 3] [] Field.zero).1 (by decide)).2
      (by decide)⟩,
   ⟨by decide, by decide,
    ((readField_short_payload_panics 0x0D [1, 2, 3] [] Field.zero).2.1 (by decide)).2
      (by decide)⟩,
   ⟨by decide, by decide,
    (readField_short_payload_panics 0x0A [0x05, 1, 2] [] Field.zero).2.2 (by decide)
      (Or.inr (by decide))⟩⟩

/-- C8: on a non-empty buffer `ReadField` returns the error "unknown wire type" exactly
when the low three bits of the first byte are 3, 4, 6 or 7, whatever follows the first
byte; the count returned with it is `-1` and the error carries those three bits. -/
theorem readField_unknown_wire_type (b : Byte) (rest spare : List Byte) (f0 : Field) :
    ((∃ n w f, ReadField ⟨b :: rest, spare⟩ f0 = .ret (n, some (.unknownWireType w), f)) ↔
      (b.val &&& 7 = 3 ∨ b.val &&& 7 = 4 ∨ b.val &&& 7 = 6 ∨ b.val &&& 7 = 7)) ∧
    (∀ n w f, ReadField ⟨b :: rest, spare⟩ f0 = .ret (n, some (.unknownWireType w), f) →
      n = -1 ∧ w = ((b.val &&& 7 : Nat) : Int)) := by
  have hand : b.val &&& 7 = b.val % 8 := Nat.and_pow_two_sub_one_eq_mod b.val 3
  have hlt : b.val % 8 < 8 := Nat.mod_lt _ (by decide)
  rw [hand]
  have key : ∀ n w f, ReadField ⟨b :: rest, spare⟩ f0 = .ret (n, some (.unknownWireType w), f) →
      (b.val % 8 ≠ 0 ∧ b.val % 8 ≠ 1 ∧ b.val % 8 ≠ 2 ∧ b.val % 8 ≠ 5) ∧
        n = -1 ∧ w = ((b.val % 8 : Nat) : Int) := by
    intro n w f h
    by_cases h0 : b.val % 8 = 0
    · rw [ReadField_varint _ _ _ _ h0] at h
      split at h
      · simp at h
      · split at h <;> simp at h
    by_cases h1 : b.val % 8 = 1
    · rw [ReadField_64bit _ _ _ _ h1] at h
      split at h <;> simp at h
    by_cases h2 : b.val % 8 = 2
    · rw [ReadField_lengthDelimited _ _ _ _ h2] at h
      split at h <;> simp at h
    by_cases h5 : b.val % 8 = 5
    · rw [ReadField_32bit _ _ _ _ h5] at h
      split at h <;> simp at h
    rw [ReadField_unknown _ _ _ _ ⟨h0, h1, h2, h5⟩] at h
    simp only [Exec.ret.injEq, Prod.mk.injEq, Option.some.injEq, Error.unknownWireType.injEq] at h
    exact ⟨⟨h0, h1, h2, h5⟩, h.1.symm, h.2.1.symm⟩
  refine ⟨⟨?_, ?_⟩, fun n w f h => (key n w f h).2⟩
  · rintro ⟨n, w, f, h⟩
    have := (key n w f h).1
    omega
  · intro h
    exact ⟨_, _, _, ReadField_unknown b rest spare f0 (by omega)⟩

/-- C8, at the buffer `[0x0B, 0x01]` (field 1, wire type 3). -/
theorem readField_unknown_wire_type_witness :
    ReadField ⟨[0x0B, 0x01], []⟩ Field.zero
        = .ret (-1, some (.unknownWireType 3), ⟨1, 3, 0, Slice.nil⟩) ∧
      (-1 : Int) = -1 ∧ (3 : Int) = (((0x0B : Byte).val &&& 7 : Nat) : Int) := by
  have h : ReadField ⟨[0x0B, 0x01], []⟩ Field.zero
      = .ret (-1, some (.unknownWireType 3), ⟨1, 3, 0, Slice.nil⟩) := by decide
  exact ⟨h, (readField_unknown_wire_type 0x0B [0x01] [] Field.zero).2 _ _ _ h⟩

/-- C9, as stated, fails where a step of the decode loop panics: on the payload
`[0x09]` (a FIXED64 tag and nothing else) `AsEmbedded` neither returns an error nor
returns fields. -/
theorem asEmbedded_neither_error_nor_fields :
    AsEmbedded ⟨1, _lengthDelimited, 1, ⟨[0x09], []⟩⟩ = .panic ∧
    ¬ ((∃ e, AsEmbedded ⟨1, _lengthDelimited, 1, ⟨[0x09], []⟩⟩ = .ret (none, some e)) ∨
       (∃ fs, AsEmbedded ⟨1, _lengthDelimited, 1, ⟨[0x09], []⟩⟩ = .ret (some fs, none))) := by
  have h : AsEmbedded ⟨1, _lengthDelimited, 1, ⟨[0x09], []⟩⟩ = .panic := by decide
  refine ⟨h, ?_⟩
  rw [h]
  rintro (⟨e, he⟩ | ⟨fs, hf⟩)
  · exact Exec.noConfusion he
  · exact Exec.noConfusion hf

/-- C9, amended: complete or absent.  On a LENGTH_DELIMITED field with payload `p`,
`AsEmbedded` has one of three outcomes: it panics (a slice expression out of range), or
it returns an error together with a nil list, or it returns without error fields
`f_0 .. f_{k-1}` for which there are offsets `0 = o_0 < o_1 < ... < o_k = len(p)` such
that `f_i` is the field `ReadField` returns on `p[o_i:]`, with the count
`o_{i+1} - o_i`.  The loop never runs out of the `len(p) + 1` iterations it is given. -/
theorem asEmbedded_complete_or_absent (f : Field) (h : f.WireType = _lengthDelimited) :
    AsEmbedded f = .panic ∨
    (∃ e, AsEmbedded f = .ret (none, some e)) ∨
    (∃ fs os, AsEmbedded f = .ret (some fs, none) ∧ os.length = fs.length ∧
      Framed f.data (0 :: os) fs) := by
  have hk : ∀ (p : Slice) (os : List Int) (fs : List Field) (o : Int),
      Framed p (o :: os) fs → os.length = fs.length := by
    intro p os
    induction os with
    | nil =>
      intro fs o hfr
      cases fs with
      | nil => rfl
      | cons fd fs => exact absurd hfr (by simp [Framed])
    | cons o1 os ih =>
      intro fs o hfr
      cases fs with
      | nil => exact absurd hfr (by simp [Framed])
      | cons fd fs =>
        simp only [Framed] at hfr
        simp only [List.length_cons]
        rw [ih fs o1 hfr.2.2]
  have hw : ¬ (f.WireType ≠ _lengthDelimited) := fun hn => hn h
  rw [AsEmbedded, if_neg hw]
  rcases embeddedLoop_spec f.data (f.data.data.length + 1) 0 [] (by omega)
    (by simp only [Slice.len]; push_cast; omega) with hp | he | ⟨fs, os, hr, hfr⟩
  · exact Or.inl hp
  · exact Or.inr (Or.inl he)
  · exact Or.inr (Or.inr ⟨fs, os, by simpa using hr, hk _ _ _ _ hfr, hfr⟩)

/-- C9 amended, at the payload `[0x08, 0x01, 0x08, 0x02]`, which holds field 1 twice:
both entries are returned, in buffer order, along the offsets 0, 2, 4. -/
theorem asEmbedded_complete_or_absent_witness :
    (2 : Int) = _lengthDelimited ∧
    AsEmbedded ⟨7, 2, 4, ⟨[0x08, 0x01, 0x08, 0x02], []⟩⟩
      = .ret (some [⟨1, 0, 1, ⟨[0x01], [0x08, 0x02]⟩⟩, ⟨1, 0, 1, ⟨[0x02], []⟩⟩], none) ∧
    (AsEmbedded ⟨7, 2, 4, ⟨[0x08, 0x01, 0x08, 0x02], []⟩⟩ = .panic ∨
      (∃ e, AsEmbedded ⟨7, 2, 4, ⟨[0x08, 0x01, 0x08, 0x02], []⟩⟩ = .ret (none, some e)) ∨
      (∃ fs os, AsEmbedded ⟨7, 2, 4, ⟨[0x08, 0x01, 0x08, 0x02], []⟩⟩ = .ret (some fs, none) ∧
        os.length = fs.length ∧
        Framed (Slice.mk [0x08, 0x01, 0x08, 0x02] []) (0 :: os) fs)) :=
  ⟨rfl, by decide,
    asEmbedded_complete_or_absent ⟨7, 2, 4, ⟨[0x08, 0x01, 0x08, 0x02], []⟩⟩ rfl⟩

/-- C10: a typed accessor called on a field of another wire type returns its zero value
together with an error, whatever the payload: it does not panic and does not return a
value without an error. -/
theorem accessor_type_mismatch (f : Field) :
    (f.WireType ≠ 0 →
      AsInt64 f = .ret (0, some .notVarint) ∧ AsSint64 f = .ret (0, some .notVarint)) ∧
    (f.WireType ≠ 2 →
      AsString f = .ret ([], some .notLengthDelimited) ∧
      AsEmbedded f = .ret (none, some .notLengthDelimited)) ∧
    (f.WireType ≠ 5 →
      AsFloat f = .ret (⟨0⟩, some .not32bit) ∧ AsFixed32 f = .ret (0, some .not32bit)) ∧
    (f.WireType ≠ 1 →
      AsDouble f = .ret (⟨0⟩, some .not64bit) ∧ AsFixed64 f = .ret (0, some .not64bit)) := by
  refine ⟨fun h => ?_, fun h => ?_, fun h => ?_, fun h => ?_⟩
  · simp [AsInt64, AsSint64, _varint, h]
  · simp [AsString, AsEmbedded, _lengthDelimited, h]
  · simp [AsFloat, AsFixed32, _32bit, h]
  · simp [AsDouble, AsFixed64, _64bit, h]

/-- C10, at a VARINT field with an empty payload read as a double and as a string, and
at a FIXED64 field with an empty payload read as a varint and as a float. -/
theorem accessor_type_mismatch_witness :
    ((0 : Int) ≠ 2 ∧ (0 : Int) ≠ 5 ∧ (0 : Int) ≠ 1 ∧ (1 : Int) ≠ 0) ∧
    (AsString ⟨1, 0, 0, Slice.nil⟩ = .ret ([], some .notLengthDelimited) ∧
      AsEmbedded ⟨1, 0, 0, Slice.nil⟩ = .ret (none, some .notLengthDelimited)) ∧
    (AsFloat ⟨1, 0, 0, Slice.nil⟩ = .ret (⟨0⟩, some .not32bit) ∧
      AsFixed32 ⟨1, 0, 0, Slice.nil⟩ = .ret (0, some .not32bit)) ∧
    (AsDouble ⟨1, 0, 0, Slice.nil⟩ = .ret (⟨0⟩, some .not64bit) ∧
      AsFixed64 ⟨1, 0, 0, Slice.nil⟩ = .ret (0, some .not64bit)) ∧
    (AsInt64 ⟨1, 1, 0, Slice.nil⟩ = .ret (0, some .notVarint) ∧
      AsSint64 ⟨1, 1, 0, Slice.nil⟩ = .ret (0, some .notVarint)) :=
  ⟨by decide,
   (accessor_type_mismatch ⟨1, 0, 0, Slice.nil⟩).2.1 (by decide),
   (accessor_type_mismatch ⟨1, 0, 0, Slice.nil⟩).2.2.1 (by decide),
   (accessor_type_mismatch ⟨1, 0, 0, Slice.nil⟩).2.2.2 (by decide),
   (accessor_type_mismatch ⟨1, 1, 0, Slice.nil⟩).1 (by decide)⟩

/-- C11: for a field number `k` in `1..15`, a byte string `s` and any trailing bytes, in
a buffer of a length a Go slice can have (below `2 ^ 63`, hence `len(s) < 2 ^ 63`),
`ReadField` on `[8*k + 2] ++ enc(len(s)) ++ s ++ rest` returns without error the count
`1 + len(enc(len(s))) + len(s)` and a field with `FieldNum = k`, `WireType = 2`,
`Length = len(s)` and payload `s`, on which `AsString` returns the bytes of `s`
unchanged. -/
theorem readField_string_field (k : Nat) (hk : 1 ≤ k ∧ k ≤ 15) (str rest spare : List Byte)
    (hlen : (byte (8 * k + 2) :: (encodeVarint str.length ++ str ++ rest)).length < 2 ^ 63)
    (f0 : Field) :
    ∃ f : Field,
      ReadField ⟨byte (8 * k + 2) :: (encodeVarint str.length ++ str ++ rest), spare⟩ f0
        = .ret (1 + ((encodeVarint str.length).length : Int) + (str.length : Int), none, f) ∧
      f.FieldNum = k ∧ f.WireType = _lengthDelimited ∧ f.Length = (str.length : Int) ∧
      f.data.data = str ∧ AsString f = .ret (str, none) := by
  have hb : (byte (8 * k + 2)).val = 8 * k + 2 := byte_val _ (by omega)
  have hw : (byte (8 * k + 2)).val % 8 = 2 := by rw [hb]; omega
  have hf : (byte (8 * k + 2)).val / 8 = k := by rw [hb]; omega
  simp only [List.length_cons, List.length_append] at hlen
  have hv : varintLoop (encodeVarint str.length ++ str ++ rest) 0 0
      = ((str.length : Int), ((encodeVarint str.length).length : Int)) := by
    have h := varintLoop_encode str.length 0 0 (str ++ rest) (by simp)
      (by simp only [Nat.zero_mul, Nat.pow_zero, Nat.mul_one, Nat.zero_add]; omega)
    simpa using h
  have hr := ReadField_lengthDelimited_ok (byte (8 * k + 2))
    (encodeVarint str.length ++ str ++ rest) spare f0 hw (encodeVarint str.length).length
    str.length hv (by simp only [List.length_append]; omega) (by omega)
  have hd : (((encodeVarint str.length ++ str ++ rest) ++ spare).drop
      (encodeVarint str.length).length).take str.length = str := by
    simp [List.append_assoc]
  rw [hd, hf] at hr
  exact ⟨_, hr, rfl, rfl, rfl, rfl, by simp [AsString, _lengthDelimited]⟩

/-- C11, at field 5 carrying "Hello World": the buffer is `0x2A`, the length 11 and the
eleven bytes of the text. -/
theorem readField_string_field_witness :
    ((1 : Nat) ≤ 5 ∧ (5 : Nat) ≤ 15) ∧
    ∃ f : Field,
      ReadField ⟨[0x2A, 11, 72, 101, 108, 108, 111, 32, 87, 111, 114, 108, 100], []⟩ Field.zero
        = .ret (13, none, f) ∧
      f.FieldNum = 5 ∧ f.WireType = _lengthDelimited ∧ f.Length = 11 ∧
      f.data.data = [72, 101, 108, 108, 111, 32, 87, 111, 114, 108, 100] ∧
      AsString f = .ret ([72, 101, 108, 108, 111, 32, 87, 111, 114, 108, 100], none) := by
  refine ⟨by decide, ?_⟩
  have e : encodeVarint 11 = [11] := by simp [encodeVarint, byte]
  have h := readField_string_field 5 (by decide)
    [72, 101, 108, 108, 111, 32, 87, 111, 114, 108, 100] [] [] (by
      simp only [List.length_cons, List.length_append, List.length_nil, e]
      norm_num) Field.zero
  simpa [e, byte] using h

/-- C12: empty input is not an error.  `ReadField` on a buffer of length zero returns
the count 0 and no error and leaves the field as it was; `AsEmbedded` on a
LENGTH_DELIMITED field with an empty payload returns the empty (non-nil) list and no
error. -/
theorem empty_input_is_not_an_error (spare : List Byte) (f0 : Field) (fn len : Int) :
    ReadField ⟨[], spare⟩ f0 = .ret (0, none, f0) ∧
    AsEmbedded ⟨fn, _lengthDelimited, len, ⟨[], spare⟩⟩ = .ret (some [], none) := by
  refine ⟨rfl, ?_⟩
  rfl

/-- C13: `varint` returns `(0, 0)` exactly when the slice has no terminating byte (it is
empty, or every byte has bit 7 set).  Otherwise, with `i` the index of the first byte
whose bit 7 is clear, the count returned is `i + 1`, and the result is the same whatever
bytes (and whatever spare capacity) follow that byte. -/
theorem varint_zero_iff_unterminated (s : Slice) :
    (varint s = (0, 0) ↔ ∀ b ∈ s.data, b.val &&& 0x80 ≠ 0) ∧
    (∀ (pre : List Byte) (b : Byte) (post : List Byte), s.data = pre ++ b :: post →
      (∀ x ∈ pre, x.val &&& 0x80 ≠ 0) → b.val &&& 0x80 = 0 →
      (varint s).2 = (pre.length : Int) + 1 ∧
      ∀ (post2 spare2 : List Byte), varint ⟨pre ++ b :: post2, spare2⟩ = varint s) := by
  constructor
  · constructor
    · intro h
      have h2 : (varintLoop s.data 0 0).2 = 0 := by
        have : varintLoop s.data 0 0 = (0, 0) := h
        rw [this]
      exact (varintLoop_count_zero_iff s.data 0 0).1 h2
    · intro h
      exact varintLoop_unterminated s.data h 0 0
  · intro pre b post hs hpre hb
    have h := varintLoop_terminated pre b post hpre hb 0 0
    simp only [varint, hs]
    refine ⟨by rw [h.2]; simp, ?_⟩
    intro post2 spare2
    rw [h.1, (varintLoop_terminated pre b post2 hpre hb 0 0).1]

/-- C13, at `[0x96, 0x01, 0x7F]`: the first byte with bit 7 clear has index 1, the count
is 2, and the value 150 is also what `[0x96, 0x01]` gives. -/
theorem varint_zero_iff_unterminated_witness :
    varint ⟨[0x96, 0x01, 0x7F], []⟩ = (150, 2) ∧
    (varint ⟨[0x96, 0x01, 0x7F], []⟩).2 = (([0x96] : List Byte).length : Int) + 1 ∧
    varint ⟨[0x96] ++ 0x01 :: [], []⟩ = varint ⟨[0x96, 0x01, 0x7F], []⟩ := by
  have hpre : ∀ x ∈ ([0x96] : List Byte), x.val &&& 0x80 ≠ 0 := by
    intro x hx
    rw [List.mem_singleton] at hx
    subst hx
    decide
  have h := (varint_zero_iff_unterminated ⟨[0x96, 0x01, 0x7F], []⟩).2 [0x96] 0x01 [0x7F] rfl
    hpre (by decide)
  exact ⟨by decide, h.1, h.2 [] []⟩

/-- C18: `countVarintByte` agrees with `varint` on terminated input and only there.
Where `varint` returns a positive count, `countVarintByte` returns that count; where
`varint` returns `(0, 0)`, `countVarintByte` returns the length of the slice; the two
counts are equal exactly when the slice is empty or has a terminating byte.  So on a
VARINT tag followed by a non-empty run of bytes that all have bit 7 set, `ReadField`
returns without error a field whose payload is the whole run, and `AsInt64` on that
field returns 0 without error. -/
theorem countVarintByte_vs_varint (l spare : List Byte) :
    (∀ v c : Int, varint ⟨l, spare⟩ = (v, c) → 0 < c → countVarintByte ⟨l, spare⟩ = c) ∧
    (varint ⟨l, spare⟩ = (0, 0) → countVarintByte ⟨l, spare⟩ = (Slice.mk l spare).len) ∧
    (countVarintByte ⟨l, spare⟩ = (varint ⟨l, spare⟩).2 ↔
      (l = [] ∨ ¬ ∀ b ∈ l, b.val &&& 0x80 ≠ 0)) ∧
    (∀ (b : Byte) (f0 : Field), b.val &&& 7 = 0 → l ≠ [] → (∀ x ∈ l, x.val &&& 0x80 ≠ 0) →
      ∃ f : Field, ReadField ⟨b :: l, spare⟩ f0 = .ret (1 + (l.length : Int), none, f) ∧
        f.WireType = _varint ∧ f.Length = (l.length : Int) ∧ f.data.data = l ∧
        AsInt64 f = .ret (0, none)) := by
  refine ⟨?_, ?_, ?_, ?_⟩
  · intro v c h hc
    have h2 : (varintLoop l 0 0).2 = c := by
      have : varintLoop l 0 0 = (v, c) := h
      rw [this]
    have := countVarintLoop_eq_varintLoop l 0 0 0 (by omega)
    simp only [countVarintByte, this, h2]
    simp
  · intro h
    have h2 : (varintLoop l 0 0).2 = 0 := by
      have : varintLoop l 0 0 = (0, 0) := h
      rw [this]
    have hu := (varintLoop_count_zero_iff l 0 0).1 h2
    simp only [countVarintByte, Slice.len, countVarintLoop_unterminated l hu 0]
    simp
  · simp only [countVarintByte, varint]
    constructor
    · intro h
      by_cases hl : l = []
      · exact Or.inl hl
      · right
        intro hu
        rw [countVarintLoop_unterminated l hu 0, varintLoop_unterminated l hu 0 0] at h
        have : 0 < l.length := List.length_pos.2 hl
        simp only at h
        omega
    · rintro (hl | hn)
      · subst hl; rfl
      · have hc : (varintLoop l 0 0).2 ≠ 0 := fun h0 =>
          hn ((varintLoop_count_zero_iff l 0 0).1 h0)
        rw [countVarintLoop_eq_varintLoop l 0 0 0 hc]
        simp
  · intro b f0 hb hl hu
    have hand : b.val &&& 7 = b.val % 8 := Nat.and_pow_two_sub_one_eq_mod b.val 3
    rw [hand] at hb
    obtain ⟨k, _, _, hk, hr⟩ := ReadField_varint_ok b l spare f0 hb hl
    rw [countVarintLoop_unterminated l hu 0] at hk
    have hkl : k = l.length := by omega
    subst hkl
    refine ⟨_, hr, rfl, rfl, by simp, ?_⟩
    simp [AsInt64, _varint, varint, varintLoop_unterminated l hu 0 0]

/-- C18, at `[0x96, 0x01]` (terminated: both counts are 2) and at the tag `0x08`
followed by `[0x96, 0x80]` (unterminated: the field takes both bytes and reads as 0). -/
theorem countVarintByte_vs_varint_witness :
    (varint ⟨[0x96, 0x01], []⟩ = (150, 2) ∧ (0 : Int) < 2 ∧
      countVarintByte ⟨[0x96, 0x01], []⟩ = 2) ∧
    ((0x08 : Byte).val &&& 7 = 0 ∧ ([0x96, 0x80] : List Byte) ≠ [] ∧
      ∃ f : Field, ReadField ⟨[0x08, 0x96, 0x80], []⟩ Field.zero = .ret (3, none, f) ∧
        f.WireType = _varint ∧ f.Length = 2 ∧ f.data.data = [0x96, 0x80] ∧
        AsInt64 f = .ret (0, none)) := by
  have h1 := (countVarintByte_vs_varint [0x96, 0x01] []).1 150 2 (by decide) (by decide)
  have hu : ∀ x ∈ ([0x96, 0x80] : List Byte), x.val &&& 0x80 ≠ 0 := by
    intro x hx
    rcases List.mem_cons.1 hx with rfl | hx
    · decide
    · rw [List.mem_singleton] at hx
      subst hx
      decide
  have h2 := (countVarintByte_vs_varint [0x96, 0x80] []).2.2.2 0x08 Field.zero (by decide)
    (by decide) hu
  exact ⟨⟨by decide, by decide, h1⟩, by decide, by decide, by simpa using h2⟩

/-- C16: fixed-width payloads are read little-endian.  For a field number `k` in
`1..15`, `ReadField` on `[8*k + 5, b0, b1, b2, b3] ++ rest` returns the count 5 and a
field whose `AsFixed32` is `b0 + 2^8*b1 + 2^16*b2 + 2^24*b3` read as a signed 32-bit
integer (minus `2^32` from `2^31` on); on `[8*k + 1, b0, .., b7] ++ rest` it returns the
count 9 and a field whose `AsFixed64` is the sum of the `b_i * 2^(8*i)` read as a signed
64-bit integer. -/
theorem readField_fixed_little_endian (k : Nat) (hk : 1 ≤ k ∧ k ≤ 15)
    (rest spare : List Byte) (f0 : Field) :
    (∀ b0 b1 b2 b3 : Byte,
      ∃ f : Field,
        ReadField ⟨byte (8 * k + 5) :: b0 :: b1 :: b2 :: b3 :: rest, spare⟩ f0
          = .ret (5, none, f) ∧
        f.FieldNum = k ∧ f.WireType = _32bit ∧
        AsFixed32 f = .ret
          (if b0.val + 2 ^ 8 * b1.val + 2 ^ 16 * b2.val + 2 ^ 24 * b3.val < 2 ^ 31
            then ((b0.val + 2 ^ 8 * b1.val + 2 ^ 16 * b2.val + 2 ^ 24 * b3.val : Nat) : Int)
            else ((b0.val + 2 ^ 8 * b1.val + 2 ^ 16 * b2.val + 2 ^ 24 * b3.val : Nat) : Int)
              - 2 ^ 32, none)) ∧
    (∀ b0 b1 b2 b3 b4 b5 b6 b7 : Byte,
      ∃ f : Field,
        ReadField ⟨byte (8 * k + 1) :: b0 :: b1 :: b2 :: b3 :: b4 :: b5 :: b6 :: b7 :: rest,
            spare⟩ f0 = .ret (9, none, f) ∧
        f.FieldNum = k ∧ f.WireType = _64bit ∧
        AsFixed64 f = .ret
          (if b0.val + 2 ^ 8 * b1.val + 2 ^ 16 * b2.val + 2 ^ 24 * b3.val +
              2 ^ 32 * b4.val + 2 ^ 40 * b5.val + 2 ^ 48 * b6.val + 2 ^ 56 * b7.val < 2 ^ 63
            then ((b0.val + 2 ^ 8 * b1.val + 2 ^ 16 * b2.val + 2 ^ 24 * b3.val +
              2 ^ 32 * b4.val + 2 ^ 40 * b5.val + 2 ^ 48 * b6.val + 2 ^ 56 * b7.val : Nat) : Int)
            else ((b0.val + 2 ^ 8 * b1.val + 2 ^ 16 * b2.val + 2 ^ 24 * b3.val +
              2 ^ 32 * b4.val + 2 ^ 40 * b5.val + 2 ^ 48 * b6.val + 2 ^ 56 * b7.val : Nat) : Int)
              - 2 ^ 64, none)) := by
  constructor
  · intro b0 b1 b2 b3
    have hb : (byte (8 * k + 5)).val = 8 * k + 5 := byte_val _ (by omega)
    have hw : (byte (8 * k + 5)).val % 8 = 5 := by rw [hb]; omega
    have hf : (byte (8 * k + 5)).val / 8 = k := by rw [hb]; omega
    have hr := ReadField_32bit_ok (byte (8 * k + 5)) (b0 :: b1 :: b2 :: b3 :: rest) spare f0 hw
      (by simp only [List.length_cons]; omega)
    rw [hf] at hr
    refine ⟨_, hr, rfl, rfl, ?_⟩
    have h0 := b0.isLt
    have h1 := b1.isLt
    have h2 := b2.isLt
    have h3 := b3.isLt
    have hle : leUint32 ⟨List.take 4 (b0 :: b1 :: b2 :: b3 :: rest ++ spare),
        List.drop 4 (b0 :: b1 :: b2 :: b3 :: rest ++ spare)⟩
        = some (b0.val + 2 ^ 8 * b1.val + 2 ^ 16 * b2.val + 2 ^ 24 * b3.val) := by
      simpa using leUint32_eq b0 b1 b2 b3 [] (rest ++ spare)
    simp only [AsFixed32, _32bit, ne_eq, not_true_eq_false, if_false, hle]
    rw [toI_of_lt_width 32 _ (by omega)]
  · intro b0 b1 b2 b3 b4 b5 b6 b7
    have hb : (byte (8 * k + 1)).val = 8 * k + 1 := byte_val _ (by omega)
    have hw : (byte (8 * k + 1)).val % 8 = 1 := by rw [hb]; omega
    have hf : (byte (8 * k + 1)).val / 8 = k := by rw [hb]; omega
    have hr := ReadField_64bit_ok (byte (8 * k + 1))
      (b0 :: b1 :: b2 :: b3 :: b4 :: b5 :: b6 :: b7 :: rest) spare f0 hw
      (by simp only [List.length_cons]; omega)
    rw [hf] at hr
    refine ⟨_, hr, rfl, rfl, ?_⟩
    have h0 := b0.isLt
    have h1 := b1.isLt
    have h2 := b2.isLt
    have h3 := b3.isLt
    have h4 := b4.isLt
    have h5 := b5.isLt
    have h6 := b6.isLt
    have h7 := b7.isLt
    have hle : leUint64 ⟨List.take 8 (b0 :: b1 :: b2 :: b3 :: b4 :: b5 :: b6 :: b7 :: rest ++ spare),
        List.drop 8 (b0 :: b1 :: b2 :: b3 :: b4 :: b5 :: b6 :: b7 :: rest ++ spare)⟩
        = some (b0.val + 2 ^ 8 * b1.val + 2 ^ 16 * b2.val + 2 ^ 24 * b3.val +
          2 ^ 32 * b4.val + 2 ^ 40 * b5.val + 2 ^ 48 * b6.val + 2 ^ 56 * b7.val) := by
      simpa using leUint64_eq b0 b1 b2 b3 b4 b5 b6 b7 [] (rest ++ spare)
    simp only [AsFixed64, _64bit, ne_eq, not_true_eq_false, if_false, hle]
    rw [toI_of_lt_width 64 _ (by omega)]

/-- C16, at field 1: the FIXED32 payload `[0xFE, 0xFF, 0xFF, 0xFF]` reads as `-2`, the
FIXED64 payload `[0x01, 0x02, 0, 0, 0, 0, 0, 0x80]` as `513 - 2^63`. -/
theorem readField_fixed_little_endian_witness :
    ((1 : Nat) ≤ 1 ∧ (1 : Nat) ≤ 15) ∧
    (∃ f : Field,
      ReadField ⟨[0x0D, 0xFE, 0xFF, 0xFF, 0xFF, 0x07], []⟩ Field.zero = .ret (5, none, f) ∧
      f.FieldNum = 1 ∧ f.WireType = _32bit ∧ AsFixed32 f = .ret (-2, none)) ∧
    (∃ f : Field,
      ReadField ⟨[0x09, 0x01, 0x02, 0, 0, 0, 0, 0, 0x80, 0x07], []⟩ Field.zero
        = .ret (9, none, f) ∧
      f.FieldNum = 1 ∧ f.WireType = _64bit ∧ AsFixed64 f = .ret (513 - 2 ^ 63, none)) := by
  have h := readField_fixed_little_endian 1 (by decide) [0x07] [] Field.zero
  have h32 := h.1 0xFE 0xFF 0xFF 0xFF
  have h64 := h.2 0x01 0x02 0 0 0 0 0 0x80
  refine ⟨by decide, ?_, ?_⟩
  · obtain ⟨f, hr, hn, hw, ha⟩ := h32
    refine ⟨f, hr, hn, hw, ?_⟩
    rw [ha]
    decide
  · obtain ⟨f, hr, hn, hw, ha⟩ := h64
    refine ⟨f, hr, hn, hw, ?_⟩
    rw [ha]
    decide

/-- C15, as stated, fails on a slice with spare capacity: on the two-byte buffer
`[0x0D, 1]` with four more bytes in its capacity `ReadField` returns the count 5, which
is more than `len(src) = 2`. -/
theorem readField_count_exceeds_len :
    ReadField ⟨[0x0D, 1], [2, 3, 4, 5]⟩ Field.zero
      = .ret (5, none, ⟨1, 5, 4, ⟨[1, 2, 3, 4], [5]⟩⟩) ∧
    ¬ ((5 : Int) ≤ (Slice.mk [0x0D, 1] [2, 3, 4, 5]).len) := by
  decide

/-- C15, amended: byte accounting of `ReadField`, with the count bounded by the
capacity.  When `ReadField` returns the count `n` and no error on a non-empty slice
`src`, then `1 <= n <= cap(src)`, and `n <= len(src)` when `src` has no spare capacity
or the field is a VARINT; `Length` is the length of the payload and the payload is
`src[n - Length : n]`; `n = 1 + Length` for VARINT, FIXED64 (`Length = 8`) and FIXED32
(`Length = 4`), and `n = 1 + c + Length` for LENGTH_DELIMITED, `c` being the count that
`varint` returns for the length bytes. -/
theorem readField_byte_accounting (b : Byte) (rest spare : List Byte) (f0 f : Field) (n : Int)
    (h : ReadField ⟨b :: rest, spare⟩ f0 = .ret (n, none, f)) :
    1 ≤ n ∧ n ≤ (Slice.mk (b :: rest) spare).cap ∧
    (spare = [] → n ≤ (Slice.mk (b :: rest) spare).len) ∧
    (f.WireType = _varint → n ≤ (Slice.mk (b :: rest) spare).len) ∧
    f.Length = f.data.len ∧
    Slice.slice ⟨b :: rest, spare⟩ (n - f.Length) n = some f.data ∧
    (f.WireType = _varint → n = 1 + f.Length) ∧
    (f.WireType = _64bit → f.Length = 8 ∧ n = 1 + f.Length) ∧
    (f.WireType = _32bit → f.Length = 4 ∧ n = 1 + f.Length) ∧
    (f.WireType = _lengthDelimited → n = 1 + (varint ⟨rest, spare⟩).2 + f.Length) := by
  obtain ⟨-, hw, -, hs, h0, h1, h5, h2⟩ := ReadField_shape b rest spare f0 f n h
  have hpos := ReadField_count_pos b rest spare f0 f n h
  have hb := slice_some_bounds _ _ _ _ hs
  have hl := slice_some_length _ _ _ _ hs
  have hcap : n ≤ (Slice.mk (b :: rest) spare).cap := hb.2.2
  refine ⟨hpos, hcap, ?_, ?_, ?_, hs, ?_, ?_, ?_, ?_⟩
  · intro hsp
    subst hsp
    simpa [Slice.cap, Slice.len] using hcap
  · intro hv
    have hv0 : b.val % 8 = 0 := by
      rw [hw, _varint] at hv
      exact_mod_cast hv
    have hc := (countVarintLoop_bounds rest 0).1
    have := h0 hv0
    simp only [Slice.len, List.length_cons]
    push_cast
    omega
  · simp only [Slice.len]
    omega
  · intro hv
    have hv0 : b.val % 8 = 0 := by
      rw [hw, _varint] at hv
      exact_mod_cast hv
    exact (h0 hv0).1
  · intro hv
    have hv1 : b.val % 8 = 1 := by
      rw [hw, _64bit] at hv
      exact_mod_cast hv
    exact ⟨(h1 hv1).2, (h1 hv1).1⟩
  · intro hv
    have hv5 : b.val % 8 = 5 := by
      rw [hw, _32bit] at hv
      exact_mod_cast hv
    exact ⟨(h5 hv5).2, (h5 hv5).1⟩
  · intro hv
    have hv2 : b.val % 8 = 2 := by
      rw [hw, _lengthDelimited] at hv
      exact_mod_cast hv
    exact (h2 hv2).1

/-- C15 amended, at the buffer `[0x12, 0x03, 0x61, 0x62, 0x63, 0x08]` without spare
capacity: field 2, LENGTH_DELIMITED, one length byte, `Length = 3`, count 5. -/
theorem readField_byte_accounting_witness :
    ReadField ⟨[0x12, 0x03, 0x61, 0x62, 0x63, 0x08], []⟩ Field.zero
      = .ret (5, none, ⟨2, 2, 3, ⟨[0x61, 0x62, 0x63], [0x08]⟩⟩) ∧
    (1 : Int) ≤ 5 ∧ (5 : Int) ≤ (Slice.mk [0x12, 0x03, 0x61, 0x62, 0x63, 0x08] []).len ∧
    (3 : Int) = (Slice.mk [0x61, 0x62, 0x63] [0x08]).len ∧
    Slice.slice ⟨[0x12, 0x03, 0x61, 0x62, 0x63, 0x08], []⟩ (5 - 3) 5
      = some ⟨[0x61, 0x62, 0x63], [0x08]⟩ ∧
    (5 : Int) = 1 + (varint ⟨[0x03, 0x61, 0x62, 0x63, 0x08], []⟩).2 + 3 := by
  have hr : ReadField ⟨[0x12, 0x03, 0x61, 0x62, 0x63, 0x08], []⟩ Field.zero
      = .ret (5, none, ⟨2, 2, 3, ⟨[0x61, 0x62, 0x63], [0x08]⟩⟩) := by decide
  have h := readField_byte_accounting 0x12 [0x03, 0x61, 0x62, 0x63, 0x08] [] Field.zero _ 5 hr
  exact ⟨hr, h.1, h.2.2.1 rfl, h.2.2.2.2.1, h.2.2.2.2.2.1, h.2.2.2.2.2.2.2.2.2 rfl⟩

/-- C20: accessors are safe on a field that `ReadField` returned without error from a
non-empty buffer.  Its wire type is 0, 1, 2 or 5, its payload has exactly 8 bytes when
the wire type is 1 and exactly 4 when it is 5, and each of `AsInt64`, `AsSint64`,
`AsString`, `AsFloat`, `AsDouble`, `AsFixed32` and `AsFixed64` returns: a value and no
error when the wire type is the one it expects, an error otherwise, and never a panic. -/
theorem accessors_on_decoded_field (b : Byte) (rest spare : List Byte) (f0 f : Field) (n : Int)
    (h : ReadField ⟨b :: rest, spare⟩ f0 = .ret (n, none, f)) :
    (f.WireType = 0 ∨ f.WireType = 1 ∨ f.WireType = 2 ∨ f.WireType = 5) ∧
    (f.WireType = 1 → f.data.data.length = 8) ∧
    (f.WireType = 5 → f.data.data.length = 4) ∧
    ((f.WireType = 0 ∧ ∃ v, AsInt64 f = .ret (v, none)) ∨
      (f.WireType ≠ 0 ∧ ∃ v e, AsInt64 f = .ret (v, some e))) ∧
    ((f.WireType = 0 ∧ ∃ v, AsSint64 f = .ret (v, none)) ∨
      (f.WireType ≠ 0 ∧ ∃ v e, AsSint64 f = .ret (v, some e))) ∧
    ((f.WireType = 2 ∧ ∃ v, AsString f = .ret (v, none)) ∨
      (f.WireType ≠ 2 ∧ ∃ v e, AsString f = .ret (v, some e))) ∧
    ((f.WireType = 5 ∧ ∃ v, AsFloat f = .ret (v, none)) ∨
      (f.WireType ≠ 5 ∧ ∃ v e, AsFloat f = .ret (v, some e))) ∧
    ((f.WireType = 1 ∧ ∃ v, AsDouble f = .ret (v, none)) ∨
      (f.WireType ≠ 1 ∧ ∃ v e, AsDouble f = .ret (v, some e))) ∧
    ((f.WireType = 5 ∧ ∃ v, AsFixed32 f = .ret (v, none)) ∨
      (f.WireType ≠ 5 ∧ ∃ v e, AsFixed32 f = .ret (v, some e))) ∧
    ((f.WireType = 1 ∧ ∃ v, AsFixed64 f = .ret (v, none)) ∨
      (f.WireType ≠ 1 ∧ ∃ v e, AsFixed64 f = .ret (v, some e))) := by
  obtain ⟨-, hw, hcases, hs, -, h1, h5, -⟩ := ReadField_shape b rest spare f0 f n h
  have hl := slice_some_length _ _ _ _ hs
  have hlen8 : f.WireType = 1 → f.data.data.length = 8 := by
    intro hv
    have hv1 : b.val % 8 = 1 := by
      rw [hw] at hv
      exact_mod_cast hv
    have := (h1 hv1).2
    omega
  have hlen4 : f.WireType = 5 → f.data.data.length = 4 := by
    intro hv
    have hv5 : b.val % 8 = 5 := by
      rw [hw] at hv
      exact_mod_cast hv
    have := (h5 hv5).2
    omega
  refine ⟨?_, hlen8, hlen4, ?_, ?_, ?_, ?_, ?_, ?_, ?_⟩
  · rw [hw]
    rcases hcases with h | h | h | h <;> rw [h] <;> simp
  · by_cases hv : f.WireType = 0
    · exact Or.inl ⟨hv, (varint f.data).1, by simp [AsInt64, _varint, hv]⟩
    · exact Or.inr ⟨hv, 0, .notVarint, by simp [AsInt64, _varint, hv]⟩
  · by_cases hv : f.WireType = 0
    · exact Or.inl ⟨hv, zzd64 (varint f.data).1, by simp [AsSint64, _varint, hv]⟩
    · exact Or.inr ⟨hv, 0, .notVarint, by simp [AsSint64, _varint, hv]⟩
  · by_cases hv : f.WireType = 2
    · exact Or.inl ⟨hv, f.data.data, by simp [AsString, _lengthDelimited, hv]⟩
    · exact Or.inr ⟨hv, [], .notLengthDelimited, by simp [AsString, _lengthDelimited, hv]⟩
  · by_cases hv : f.WireType = 5
    · obtain ⟨v, hv32⟩ := leUint32_some f.data (hlen4 hv)
      exact Or.inl ⟨hv, ⟨v⟩, by simp [AsFloat, _32bit, hv, hv32]⟩
    · exact Or.inr ⟨hv, ⟨0⟩, .not32bit, by simp [AsFloat, _32bit, hv]⟩
  · by_cases hv : f.WireType = 1
    · obtain ⟨v, hv64⟩ := leUint64_some f.data (hlen8 hv)
      exact Or.inl ⟨hv, ⟨v⟩, by simp [AsDouble, _64bit, hv, hv64]⟩
    · exact Or.inr ⟨hv, ⟨0⟩, .not64bit, by simp [AsDouble, _64bit, hv]⟩
  · by_cases hv : f.WireType = 5
    · obtain ⟨v, hv32⟩ := leUint32_some f.data (hlen4 hv)
      exact Or.inl ⟨hv, toI 32 v, by simp [AsFixed32, _32bit, hv, hv32]⟩
    · exact Or.inr ⟨hv, 0, .not32bit, by simp [AsFixed32, _32bit, hv]⟩
  · by_cases hv : f.WireType = 1
    · obtain ⟨v, hv64⟩ := leUint64_some f.data (hlen8 hv)
      exact Or.inl ⟨hv, toI 64 v, by simp [AsFixed64, _64bit, hv, hv64]⟩
    · exact Or.inr ⟨hv, 0, .not64bit, by simp [AsFixed64, _64bit, hv]⟩

/-- C20, at the field that `ReadField` returns on `[0x0D, 0, 0, 0x80, 0x3F]` (field 1,
FIXED32): `AsFixed32` returns a value and `AsInt64` an error. -/
theorem accessors_on_decoded_field_witness :
    ReadField ⟨[0x0D, 0, 0, 0x80, 0x3F], []⟩ Field.zero
      = .ret (5, none, ⟨1, 5, 4, ⟨[0, 0, 0x80, 0x3F], []⟩⟩) ∧
    ((⟨1, 5, 4, ⟨[0, 0, 0x80, 0x3F], []⟩⟩ : Field).WireType = 5 →
      (⟨1, 5, 4, ⟨[0, 0, 0x80, 0x3F], []⟩⟩ : Field).data.data.length = 4) ∧
    AsFixed32 ⟨1, 5, 4, ⟨[0, 0, 0x80, 0x3F], []⟩⟩ = .ret (1065353216, none) ∧
    AsInt64 ⟨1, 5, 4, ⟨[0, 0, 0x80, 0x3F], []⟩⟩ = .ret (0, some .notVarint) := by
  have hr : ReadField ⟨[0x0D, 0, 0, 0x80, 0x3F], []⟩ Field.zero
      = .ret (5, none, ⟨1, 5, 4, ⟨[0, 0, 0x80, 0x3F], []⟩⟩) := by decide
  have h := accessors_on_decoded_field 0x0D [0, 0, 0x80, 0x3F] [] Field.zero _ 5 hr
  exact ⟨hr, h.2.2.1, by decide, by decide⟩

/-- C19: `AsEmbedded` terminates on every payload.  A field returned by `ReadField`
from a non-empty buffer comes with a count of at least 1; the decode loop, given
`len(payload) + 1` iterations, never uses them up, and any larger number of iterations
gives the same outcome; a returned list has at most `len(payload)` fields; and every
returned field is the result of one call of `ReadField` on the payload sliced from some
offset, its own payload being a slice of those bytes that is not decoded further, so the
work does not depend on how deeply the input is nested. -/
theorem asEmbedded_terminates (f : Field) (h : f.WireType = _lengthDelimited) :
    (∀ (b : Byte) (l sp : List Byte) (f0 fd : Field) (n : Int),
      ReadField ⟨b :: l, sp⟩ f0 = .ret (n, none, fd) → 1 ≤ n) ∧
    AsEmbedded f ≠ .timeout ∧
    (∀ fuel : Nat, f.data.data.length + 1 ≤ fuel →
      embeddedLoop f.data fuel 0 [] = AsEmbedded f) ∧
    (∀ fs, AsEmbedded f = .ret (some fs, none) →
      fs.length ≤ f.data.data.length ∧
      ∀ fd ∈ fs, ∃ (o : Int) (s : Slice) (n : Int),
        f.data.sliceFrom o = some s ∧ ReadField s Field.zero = .ret (n, none, fd) ∧
        s.slice (n - fd.Length) n = some fd.data) := by
  have hw : ¬ (f.WireType ≠ _lengthDelimited) := fun hn => hn h
  have hA : AsEmbedded f = embeddedLoop f.data (f.data.data.length + 1) 0 [] := by
    rw [AsEmbedded, if_neg hw]
  have hlen : f.data.len - 0 < ((f.data.data.length + 1 : Nat) : Int) := by
    simp only [Slice.len]
    push_cast
    omega
  have hspec := embeddedLoop_spec f.data (f.data.data.length + 1) 0 [] (by omega) hlen
  refine ⟨fun b l sp f0 fd n hr => ReadField_count_pos b l sp f0 fd n hr, ?_, ?_, ?_⟩
  · rw [hA]
    rcases hspec with hp | ⟨e, he⟩ | ⟨fs, os, hr, -⟩
    · rw [hp]; exact fun hc => Exec.noConfusion hc
    · rw [he]; exact fun hc => Exec.noConfusion hc
    · rw [hr]; exact fun hc => Exec.noConfusion hc
  · intro fuel hfuel
    rw [hA]
    exact embeddedLoop_fuel f.data fuel (f.data.data.length + 1) 0 [] (by omega)
      (by simp only [Slice.len]; omega) (by omega) hlen
  · intro fs hfs
    rw [hA] at hfs
    rcases hspec with hp | ⟨e, he⟩ | ⟨fs2, os, hr, hfr⟩
    · rw [hp] at hfs; exact Exec.noConfusion hfs
    · rw [he] at hfs
      simp at hfs
    · rw [hr] at hfs
      simp only [List.nil_append, Exec.ret.injEq, Prod.mk.injEq, Option.some.injEq,
        and_true] at hfs
      subst hfs
      have hle := Framed_length_le f.data fs2 0 os hfr
      simp only [Slice.len] at hle
      exact ⟨by omega, Framed_mem f.data fs2 0 os hfr⟩

/-- C19, at a payload of five bytes that holds a message nested in a message
(`[0x0A, 0x03, 0x0A, 0x01, 0x08]`): one field is returned, its payload
`[0x0A, 0x01, 0x08]` is left undecoded, and a hundred iterations give what six give. -/
theorem asEmbedded_terminates_witness :
    (2 : Int) = _lengthDelimited ∧
    AsEmbedded ⟨1, 2, 5, ⟨[0x0A, 0x03, 0x0A, 0x01, 0x08], []⟩⟩
      = .ret (some [⟨1, 2, 3, ⟨[0x0A, 0x01, 0x08], []⟩⟩], none) ∧
    AsEmbedded ⟨1, 2, 5, ⟨[0x0A, 0x03, 0x0A, 0x01, 0x08], []⟩⟩ ≠ .timeout ∧
    embeddedLoop ⟨[0x0A, 0x03, 0x0A, 0x01, 0x08], []⟩ 100 0 []
      = AsEmbedded ⟨1, 2, 5, ⟨[0x0A, 0x03, 0x0A, 0x01, 0x08], []⟩⟩ ∧
    ([⟨1, 2, 3, ⟨[0x0A, 0x01, 0x08], []⟩⟩] : List Field).length
      ≤ ([0x0A, 0x03, 0x0A, 0x01, 0x08] : List Byte).length := by
  have hr : AsEmbedded ⟨1, 2, 5, ⟨[0x0A, 0x03, 0x0A, 0x01, 0x08], []⟩⟩
      = .ret (some [⟨1, 2, 3, ⟨[0x0A, 0x01, 0x08], []⟩⟩], none) := by decide
  have h := asEmbedded_terminates ⟨1, 2, 5, ⟨[0x0A, 0x03, 0x0A, 0x01, 0x08], []⟩⟩ rfl
  exact ⟨rfl, hr, h.2.1, h.2.2.1 100 (by decide), (h.2.2.2 _ hr).1⟩

/-- C14: no length cap, silent wrap.  On a slice whose first byte with bit 7 clear has
index `i` (any `i`), `varint` returns the count `i + 1` and the value
`(sum over j <= i of (b_j & 0x7F) * 2^(7*j)) mod 2^64` read as a signed 64-bit integer.
The groups from index 10 on have no part in that value, and the encoding of the bit
pattern of a negative `int64`, which has ten bytes, decodes to that negative value. -/
theorem varint_wraps_silently (pre : List Byte) (b : Byte) (post spare : List Byte)
    (hpre : ∀ x ∈ pre, x.val &&& 0x80 ≠ 0) (hb : b.val &&& 0x80 = 0) :
    varint ⟨pre ++ b :: post, spare⟩
      = ((if groupSum (pre ++ [b]) % 2 ^ 64 < 2 ^ 63
            then ((groupSum (pre ++ [b]) % 2 ^ 64 : Nat) : Int)
            else ((groupSum (pre ++ [b]) % 2 ^ 64 : Nat) : Int) - 2 ^ 64),
          (pre.length : Int) + 1) ∧
    groupSum (pre ++ [b]) % 2 ^ 64 = groupSum ((pre ++ [b]).take 10) % 2 ^ 64 ∧
    (∀ x : Int, -2 ^ 63 ≤ x → x < 0 → ∀ rest sp : List Byte,
      (encodeVarint (toU 64 x)).length = 10 ∧
      varint ⟨encodeVarint (toU 64 x) ++ rest, sp⟩ = (x, 10)) := by
  refine ⟨?_, ?_, ?_⟩
  · have h := varintLoop_groupSum b post hb pre hpre 0 0 (by simp)
    have h0 : toI 64 0 = 0 := by decide
    rw [h0] at h
    simp only [Nat.zero_mul, Nat.pow_zero, Nat.one_mul, Nat.zero_add, Nat.cast_zero,
      zero_add] at h
    simp only [varint, h]
    rfl
  · have h := groupSum_take_drop 10 (pre ++ [b])
    have e : (2 : Nat) ^ (7 * 10) = 2 ^ 70 := by norm_num
    rw [e] at h
    omega
  · intro x hx1 hx2 rest sp
    have hu := toU64_neg_bounds x ⟨hx1, hx2⟩
    have hlen : (encodeVarint (toU 64 x)).length = 10 :=
      encodeVarint_length 9 (toU 64 x) (by norm_num; omega) (Or.inr (by norm_num; omega))
    obtain ⟨p, t, he, hp, ht, hg⟩ := encodeVarint_shape (toU 64 x)
    have h := varintLoop_groupSum t rest ht p hp 0 0 (by simp)
    have h0 : toI 64 0 = 0 := by decide
    rw [h0] at h
    simp only [Nat.zero_mul, Nat.pow_zero, Nat.one_mul, Nat.zero_add, Nat.cast_zero,
      zero_add] at h
    have hpl : (p.length : Int) + 1 = 10 := by
      have : (p ++ [t]).length = 10 := by rw [← he]; exact hlen
      simp only [List.length_append, List.length_singleton] at this
      omega
    refine ⟨hlen, ?_⟩
    rw [he, List.append_assoc, List.singleton_append]
    simp only [varint, h, hg, hpl]
    rw [toI64_toU64 x ⟨hx1, by omega⟩]

/-- C14, at twelve bytes (eleven continuation bytes `0xFF` and the terminating `0x01`):
the count is 12 and the value is `-1`, the low 64 bits of the groups; and at the ten
bytes that encode `-2`. -/
theorem varint_wraps_silently_witness :
    varint ⟨[0xFF, 0xFF, 0xFF, 0xFF, 0xFF, 0xFF, 0xFF, 0xFF, 0xFF, 0xFF, 0xFF, 0x01, 0x05], []⟩
      = (-1, 12) ∧
    varint ⟨[0xFE, 0xFF, 0xFF, 0xFF, 0xFF, 0xFF, 0xFF, 0xFF, 0xFF, 0x01], []⟩ = (-2, 10) := by
  have hpre : ∀ x ∈ ([0xFF, 0xFF, 0xFF, 0xFF, 0xFF, 0xFF, 0xFF, 0xFF, 0xFF, 0xFF, 0xFF] :
      List Byte), x.val &&& 0x80 ≠ 0 := by
    intro x hx
    simp only [List.mem_cons, List.mem_singleton, List.not_mem_nil, or_false, or_self] at hx
    subst hx
    decide
  have h := varint_wraps_silently
    [0xFF, 0xFF, 0xFF, 0xFF, 0xFF, 0xFF, 0xFF, 0xFF, 0xFF, 0xFF, 0xFF] 0x01 [0x05] [] hpre
    (by decide)
  have h1 := h.1
  have h2 := (h.2.2 (-2) (by decide) (by decide) [] []).2
  have e : encodeVarint (toU 64 (-2))
      = [0xFE, 0xFF, 0xFF, 0xFF, 0xFF, 0xFF, 0xFF, 0xFF, 0xFF, 0x01] := by
    have : toU 64 (-2) = 18446744073709551614 := by decide
    rw [this]
    simp [encodeVarint, byte]
  rw [e] at h2
  exact ⟨h1.trans (by decide), by simpa using h2⟩

/-- C17: the exact domain of the 64-bit zig-zag round trip.  For an `int64` value `x`,
`zzd64 (zze64 x) = x` exactly when `-2^62 <= x < 2^62`.  Outside that range the result
is `x - 2^63` for `x >= 2^62` and `x + 2^63` for `x < -2^62`: its bit pattern is that of
`x` with bit 63, the sign bit, flipped and every other bit unchanged. -/
theorem zigzag64_roundtrip_domain (x : Int) (hx : -2 ^ 63 ≤ x ∧ x < 2 ^ 63) :
    (zzd64 (zze64 x) = x ↔ (-2 ^ 62 ≤ x ∧ x < 2 ^ 62)) ∧
    (2 ^ 62 ≤ x → zzd64 (zze64 x) = x - 2 ^ 63) ∧
    (x < -2 ^ 62 → zzd64 (zze64 x) = x + 2 ^ 63) ∧
    (¬ (-2 ^ 62 ≤ x ∧ x < 2 ^ 62) → toU 64 (zzd64 (zze64 x)) = toU 64 x ^^^ 2 ^ 63) := by
  have he := zze64_eq x hx
  have hval : zzd64 (zze64 x) =
      if 2 ^ 62 ≤ x then x - 2 ^ 63 else if x < -2 ^ 62 then x + 2 ^ 63 else x := by
    have hr : -2 ^ 63 ≤ zze64 x ∧ zze64 x < 2 ^ 63 := by
      rw [he]
      split <;> split <;> omega
    rw [zzd64_eq _ hr, he]
    split <;> split <;> split <;> split <;> omega
  have hhi : 2 ^ 62 ≤ x → zzd64 (zze64 x) = x - 2 ^ 63 := by
    intro h
    rw [hval, if_pos h]
  have hlo : x < -2 ^ 62 → zzd64 (zze64 x) = x + 2 ^ 63 := by
    intro h
    rw [hval, if_neg (by omega), if_pos h]
  refine ⟨?_, hhi, hlo, ?_⟩
  · rw [hval]
    constructor
    · intro h
      split at h
      · omega
      · split at h <;> omega
    · intro h
      rw [if_neg (by omega), if_neg (by omega)]
  · intro hout
    by_cases h : 2 ^ 62 ≤ x
    · rw [hhi h]
      have e1 : toU 64 x < 2 ^ 63 := by unfold toU; omega
      rw [xor_sign_bit _ e1]
      unfold toU
      omega
    · have h2 : x < -2 ^ 62 := by omega
      rw [hlo h2]
      have e1 : 2 ^ 63 ≤ toU 64 x ∧ toU 64 x < 2 ^ 64 := by unfold toU; omega
      rw [xor_sign_bit_ge _ e1.1 e1.2]
      unfold toU
      omega

/-- C17, at the minimum `int64`, which comes back as 0, and at `2^62`, which comes back
as `-2^62`. -/
theorem zigzag64_roundtrip_domain_witness :
    ((-2 ^ 63 : Int) ≤ -2 ^ 63 ∧ (-2 ^ 63 : Int) < 2 ^ 63) ∧ (-2 ^ 63 : Int) < -2 ^ 62 ∧
    zzd64 (zze64 (-2 ^ 63)) = -2 ^ 63 + 2 ^ 63 ∧
    (((2 : Int) ^ 62 : Int) ≤ 2 ^ 62 ∧ zzd64 (zze64 (2 ^ 62)) = 2 ^ 62 - 2 ^ 63) :=
  ⟨by decide, by decide,
    (zigzag64_roundtrip_domain (-2 ^ 63) (by decide)).2.2.1 (by decide),
    by decide, (zigzag64_roundtrip_domain (2 ^ 62) (by decide)).2.1 (by decide)⟩

end ProtoDecode
